import Mathlib

/-!
# Verification of the shellbeats playback / library core

A shallow embedding of the persistence codec, library store, player IPC
end-of-track check and playback session logic of `shellbeats.c`, with
theorems settling the specification's testable properties.

Strings are modelled as `List Char` (C strings are NUL-terminated byte
arrays; none of the modelled code stores a NUL inside a string).
-/

namespace ShellBeats

abbrev Str := List Char

/-- `json_escape_string`, per character: `"` and `\` get a backslash
prepended; newline, carriage return and tab become `\n`, `\r`, `\t`;
everything else is copied.  (The C code's `j < alloc - 2` guard never
truncates: each input char emits at most 2 bytes into a `2*len + 1`
buffer.) -/
def escChar (c : Char) : Str :=
  if c = '"' ∨ c = '\\' then ['\\', c]
  else if c = '\n' then ['\\', 'n']
  else if c = '\r' then ['\\', 'r']
  else if c = '\t' then ['\\', 't']
  else [c]

def json_escape_string (s : Str) : Str := s.flatMap escChar

/-- The unescape loop at the end of `json_get_string`: `\n`/`\r`/`\t`
decode to the control character, `\c` decodes to `c` for any other `c`,
a lone trailing backslash is copied, anything else is copied. -/
def unescape : Str → Str
  | [] => []
  | '\\' :: [] => ['\\']
  | '\\' :: d :: rest =>
      (if d = 'n' then '\n'
       else if d = 'r' then '\r'
       else if d = 't' then '\t'
       else d) :: unescape rest
  | c :: rest => c :: unescape rest

/-- The quoted-value scan of `json_get_string`: take characters up to the
first unescaped `"` (a `\` skips the following character); a lone
trailing `\` is kept, and a missing closing quote takes everything. -/
def rawSpan : Str → Str
  | [] => []
  | '"' :: _ => []
  | '\\' :: [] => ['\\']
  | '\\' :: d :: rest => '\\' :: d :: rawSpan rest
  | c :: rest => c :: rawSpan rest

/-- `strstr(s, pat)` followed by `p += strlen(pat)`: the remainder of `s`
after the first occurrence of `pat`. -/
def dropThroughFirst (pat : Str) : Str → Option Str
  | [] => if pat.isPrefixOf ([] : Str) then some [] else none
  | c :: rest =>
      if pat.isPrefixOf (c :: rest) then some ((c :: rest).drop pat.length)
      else dropThroughFirst pat rest

/-- `strstr(s, pat)`: the suffix of `s` beginning at the first occurrence
of `pat`. -/
def suffixAtFirst (pat : Str) : Str → Option Str
  | [] => if pat.isPrefixOf ([] : Str) then some [] else none
  | c :: rest =>
      if pat.isPrefixOf (c :: rest) then some (c :: rest)
      else suffixAtFirst pat rest

/-- `strchr(s, ch)`: the suffix of `s` beginning at the first occurrence
of the character `ch`. -/
def fromFirstChar (ch : Char) : Str → Option Str
  | [] => none
  | c :: rest => if c = ch then some (c :: rest) else fromFirstChar ch rest

/-- Splits at the first occurrence of `ch`, keeping it on the left
(`obj_end = strchr(obj_start, ch)`, object slice inclusive of `ch`,
scan resumes at `obj_end + 1`). -/
def splitAtCharIncl (ch : Char) : Str → Option (Str × Str)
  | [] => none
  | c :: rest =>
      if c = ch then some ([c], rest)
      else
        match splitAtCharIncl ch rest with
        | none => none
        | some (a, b) => some (c :: a, b)

/-- The separator characters `json_get_string` skips between the key
pattern and the opening quote of the value. -/
def isSepChar (c : Char) : Bool := c == ' ' || c == ':' || c == '\t'

/-- `json_get_string(json, key)`: find the first `"key"`, skip
spaces/colons/tabs, require an opening `"`, then return the unescaped
span up to the closing quote.  `none` when the key pattern is absent or
not followed by a quoted value. -/
def json_get_string (json : Str) (key : Str) : Option Str :=
  match dropThroughFirst ('"' :: key ++ ['"']) json with
  | none => none
  | some p =>
      match p.dropWhile isSepChar with
      | '"' :: rest => some (unescape (rawSpan rest))
      | _ => none

/-! ## Data model -/

structure Song where
  title : Str
  video_id : Str
  url : Str
  duration : Int
deriving DecidableEq

/-- `snprintf(url, 256, "https://www.youtube.com/watch?v=%s", id)`:
at most 255 characters are written. -/
def urlOfVideoId (vid : Str) : Str :=
  (("https://www.youtube.com/watch?v=".toList) ++ vid).take 255

structure Playlist where
  name : Str
  filename : Str
  items : List Song
deriving DecidableEq

def emptyPlaylist : Playlist := ⟨[], [], []⟩

/-! ## Persistence codec: encoders (`save_playlist`, `save_playlists_index`)

Note `save_playlist` writes the playlist *name* unescaped; only song
titles and video ids pass through `json_escape_string`. -/

def songLine (s : Song) (last : Bool) : Str :=
  "    \x7b\"title\": \"".toList ++ json_escape_string s.title
    ++ "\", \"video_id\": \"".toList ++ json_escape_string s.video_id
    ++ "\"\x7d".toList ++ (if last then [] else [',']) ++ ['\n']

def songLines : List Song → Str
  | [] => []
  | [s] => songLine s true
  | s :: rest => songLine s false ++ songLines rest

def save_playlist_text (name : Str) (items : List Song) : Str :=
  "\x7b\n  \"name\": \"".toList ++ name ++ "\",\n  \"songs\": [\n".toList
    ++ songLines items ++ "  ]\n\x7d\n".toList

def indexLine (e : Str × Str) (last : Bool) : Str :=
  "    \x7b\"name\": \"".toList ++ json_escape_string e.1
    ++ "\", \"filename\": \"".toList ++ json_escape_string e.2
    ++ "\"\x7d".toList ++ (if last then [] else [',']) ++ ['\n']

def indexLines : List (Str × Str) → Str
  | [] => []
  | [e] => indexLine e true
  | e :: rest => indexLine e false ++ indexLines rest

def save_playlists_index_text (entries : List (Str × Str)) : Str :=
  "\x7b\n  \"playlists\": [\n".toList ++ indexLines entries
    ++ "  ]\n\x7d\n".toList

/-! ## Persistence codec: decoders (`load_playlist_songs`, `load_playlists`)

Both decoders share the same object-scanning loop: find the next `{`,
slice to the first following `}`, extract fields from the slice, keep
the entry only when the required fields are present; the loop stops at
the capacity ceiling.  Only the capacity and the per-object field
extraction differ. -/

theorem fromFirstChar_length_le {ch : Char} {s q : Str}
    (h : fromFirstChar ch s = some q) : q.length ≤ s.length := by
  induction s with
  | nil => simp [fromFirstChar] at h
  | cons c rest ih =>
      simp only [fromFirstChar] at h
      split at h
      · cases h; exact Nat.le_refl _
      · exact Nat.le_succ_of_le (ih h)

theorem splitAtCharIncl_length_lt {ch : Char} {s a b : Str}
    (h : splitAtCharIncl ch s = some (a, b)) : b.length < s.length := by
  induction s generalizing a b with
  | nil => simp [splitAtCharIncl] at h
  | cons c rest ih =>
      simp only [splitAtCharIncl] at h
      split at h
      · cases h; simp
      · revert h
        match hrec : splitAtCharIncl ch rest with
        | none => intro h; cases h
        | some (a', b') =>
            intro h
            cases h
            exact Nat.lt_succ_of_lt (ih hrec)

/-- The song keep-condition of `load_playlist_songs`:
`title && video_id && video_id[0]`; the kept song's url is derived and
its duration is 0. -/
def parseSongObj (obj : Str) : Option Song :=
  match json_get_string obj ("title".toList),
        json_get_string obj ("video_id".toList) with
  | some t, some v =>
      if v ≠ [] then some ⟨t, v, urlOfVideoId v, 0⟩ else none
  | _, _ => none

/-- The index keep-condition of `load_playlists`:
`name && filename && name[0] && filename[0]`. -/
def parseIndexObj (obj : Str) : Option (Str × Str) :=
  match json_get_string obj ("name".toList),
        json_get_string obj ("filename".toList) with
  | some n, some f =>
      if n ≠ [] ∧ f ≠ [] then some (n, f) else none
  | _, _ => none

/-- The shared object-scanning loop (`while (count < MAX)` with `strchr` for the
braces); `count` only advances on kept entries, the
scan pointer always advances past the `}`.  The loop terminates because
the scan pointer strictly advances; `fuel` is an upper bound on the
remaining text length (callers pass the text's length), so with enough
fuel the zero-fuel base case is unreachable
(`scanObjects_fuel_irrelevant`). -/
def scanObjects {α : Type} (maxCount : Nat) (parseObj : Str → Option α) :
    Nat → Nat → Str → List α
  | 0, _, _ => []
  | fuel + 1, count, p =>
    if count < maxCount then
      match fromFirstChar '\x7b' p with
      | none => []
      | some q =>
          match splitAtCharIncl '\x7d' q with
          | none => []
          | some (obj, rest) =>
              match parseObj obj with
              | some a => a :: scanObjects maxCount parseObj fuel (count + 1) rest
              | none => scanObjects maxCount parseObj fuel count rest
    else []

/-- `load_playlist_songs` on a file's full text: the `fsize <= 0 ||
fsize > 1024*1024` guard, then `strstr "\"songs\""`, `strchr '['`, and
the object loop capped at `MAX_PLAYLIST_ITEMS = 500`. -/
def load_playlist_songs_text (content : Str) : List Song :=
  if content.length = 0 ∨ content.length > 1048576 then []
  else
    match suffixAtFirst ("\"songs\"".toList) content with
    | none => []
    | some p1 =>
        match fromFirstChar '[' p1 with
        | none => []
        | some p2 => scanObjects 500 parseSongObj p2.length 0 p2

/-- `load_playlists` on the index file's full text, capped at
`MAX_PLAYLISTS = 50`; returns the kept `(name, filename)` pairs (each
loaded playlist starts with `count = 0`, i.e. no songs). -/
def load_playlists_text (content : Str) : List (Str × Str) :=
  if content.length = 0 ∨ content.length > 1048576 then []
  else
    match suffixAtFirst ("\"playlists\"".toList) content with
    | none => []
    | some p1 =>
        match fromFirstChar '[' p1 with
        | none => []
        | some p2 => scanObjects 50 parseIndexObj p2.length 0 p2

/-! ## Library store operations -/

/-- ASCII `tolower` (the C locale's). -/
def toLowerAscii (c : Char) : Char :=
  if 'A' ≤ c ∧ c ≤ 'Z' then Char.ofNat (c.toNat + 32) else c

/-- `strcasecmp(a, b) == 0`. -/
def ciEq (a b : Str) : Bool := a.map toLowerAscii == b.map toLowerAscii

def isAlnumAscii (c : Char) : Bool :=
  ('0' ≤ c && c ≤ '9') || ('a' ≤ c && c ≤ 'z') || ('A' ≤ c && c ≤ 'Z')

/-- One character of `sanitize_filename`: alphanumeric, `-` and `_` are
kept lowercased, a space becomes `_`, everything else is dropped. -/
def sanitizeChar (c : Char) : Option Char :=
  if isAlnumAscii c || c == '-' || c == '_' then some (toLowerAscii c)
  else if c == ' ' then some '_'
  else none

/-- `sanitize_filename`: filter/map the name, then append `.json`.
(The C loop's `j < len` bound never binds since `j ≤ i < len`.) -/
def sanitize_filename (name : Str) : Str :=
  name.filterMap sanitizeChar ++ ".json".toList

structure CreateOut where
  code : Int
  playlists : List Playlist
deriving DecidableEq

/-- `create_playlist`: capacity check (`MAX_PLAYLISTS = 50`), empty-name
check, case-insensitive duplicate-name check (code `-2`), filename
derivation with a single-pass collision check that prefixes
`playlist_count ++ "_"` on the first collision found, then append.
Return code is the new index on success, `-1` on capacity/empty-name
failure, `-2` on duplicate name. -/
def create_playlist (pls : List Playlist) (name : Str) : CreateOut :=
  if pls.length ≥ 50 then ⟨-1, pls⟩
  else if name = [] then ⟨-1, pls⟩
  else if pls.any (fun p => ciEq p.name name) then ⟨-2, pls⟩
  else
    let fn0 := sanitize_filename name
    let fn := if pls.any (fun p => p.filename == fn0)
              then (toString pls.length).toList ++ '_' :: fn0
              else fn0
    ⟨(pls.length : Int), pls ++ [⟨name, fn, []⟩]⟩

/-- `delete_playlist`: bounds check, `unlink` of the playlist's file
(the on-disk directory is modelled as a `(filename, content)` list),
then shift-down removal of the in-memory entry.  Returns success, the
new library, and the new disk contents. -/
def delete_playlist (pls : List Playlist) (disk : List (Str × Str))
    (idx : Int) : Bool × List Playlist × List (Str × Str) :=
  if idx < 0 ∨ idx ≥ (pls.length : Int) then (false, pls, disk)
  else
    let fn := (pls.getD idx.toNat emptyPlaylist).filename
    (true, pls.eraseIdx idx.toNat, disk.filter (fun e => e.1 != fn))

structure AddOut where
  ok : Bool
  playlists : List Playlist
  saved : Bool
deriving DecidableEq

/-- `add_song_to_playlist`: bounds check; lazy load from disk when the
in-memory count is 0 and the playlists directory exists; capacity check
(`MAX_PLAYLIST_ITEMS = 500`); duplicate `video_id` check; append (title
and id duplicated, url re-derived, duration copied) and save.  `saved`
records whether `save_playlist` ran.  (The C null-pointer checks on
`song` and `song->video_id`, and the `"Unknown"` substitute for a NULL
title, have no counterpart for `Str` fields, which are never NULL.) -/
def add_song_to_playlist (pls : List Playlist) (pidx : Int) (song : Song)
    (dirExists : Bool) (diskContent : Str) : AddOut :=
  if pidx < 0 ∨ pidx ≥ (pls.length : Int) then ⟨false, pls, false⟩
  else
    let i := pidx.toNat
    let pl := pls.getD i emptyPlaylist
    let items0 := if pl.items.length = 0 ∧ dirExists
                  then load_playlist_songs_text diskContent
                  else pl.items
    let pls1 := if pl.items.length = 0 ∧ dirExists
                then pls.set i { pl with items := items0 }
                else pls
    if items0.length ≥ 500 then ⟨false, pls1, false⟩
    else if items0.any (fun it => it.video_id == song.video_id) then
      ⟨false, pls1, false⟩
    else
      let newItem : Song :=
        ⟨song.title, song.video_id, urlOfVideoId song.video_id, song.duration⟩
      ⟨true, pls.set i { pl with items := items0 ++ [newItem] }, true⟩

/-! ## Player IPC: end-of-track detection -/

def containsSubstr (pat s : Str) : Bool := (suffixAtFirst pat s).isSome

/-- `mpv_check_track_end` on the data a non-blocking read returned: an
empty read yields false (EAGAIN / disconnect path); otherwise true
exactly when the buffer contains both the `"event":"end-file"` and the
`"reason":"eof"` markers. -/
def mpv_check_track_end (buf : Str) : Bool :=
  if buf = [] then false
  else containsSubstr ("\"event\":\"end-file\"".toList) buf
       && containsSubstr ("\"reason\":\"eof\"".toList) buf

/-! ## Playback session -/

structure AppState where
  search_results : List Song
  playlists : List Playlist
  playing_index : Int
  playing_from_playlist : Bool
  playing_playlist_idx : Int
  paused : Bool
  playback_started : Int
  search_selected : Int
  playlist_song_selected : Int
deriving DecidableEq

/-- `play_search_result`: bounds check against the current search
results, then record the new playback session (`started_at = now`).
(The mpv side effects carry no session state and are not modelled.) -/
def play_search_result (now : Int) (st : AppState) (idx : Int) : AppState :=
  if idx < 0 ∨ idx ≥ (st.search_results.length : Int) then st
  else { st with
          playing_index := idx,
          playing_from_playlist := false,
          playing_playlist_idx := -1,
          paused := false,
          playback_started := now }

/-- `play_playlist_song`: bounds checks against the playlist count and
the playlist's song count, then record the new playback session. -/
def play_playlist_song (now : Int) (st : AppState) (pidx sidx : Int) : AppState :=
  if pidx < 0 ∨ pidx ≥ (st.playlists.length : Int) then st
  else
    let pl := st.playlists.getD pidx.toNat emptyPlaylist
    if sidx < 0 ∨ sidx ≥ (pl.items.length : Int) then st
    else { st with
            playing_index := sidx,
            playing_from_playlist := true,
            playing_playlist_idx := pidx,
            paused := false,
            playback_started := now }

/-- `play_next`: from a playlist, advance when `index + 1 < count`; else
from search results (when any), advance when `index + 1 < search_count`;
otherwise do nothing.  On success the corresponding selection follows. -/
def play_next (now : Int) (st : AppState) : AppState :=
  if st.playing_from_playlist ∧ st.playing_playlist_idx ≥ 0 then
    let pl := st.playlists.getD st.playing_playlist_idx.toNat emptyPlaylist
    let nxt := st.playing_index + 1
    if nxt < (pl.items.length : Int) then
      { play_playlist_song now st st.playing_playlist_idx nxt with
          playlist_song_selected := nxt }
    else st
  else if (st.search_results.length : Int) > 0 then
    let nxt := st.playing_index + 1
    if nxt < (st.search_results.length : Int) then
      { play_search_result now st nxt with search_selected := nxt }
    else st
  else st

/-- `play_prev`: symmetric to `play_next`, guarding `index - 1 >= 0`. -/
def play_prev (now : Int) (st : AppState) : AppState :=
  if st.playing_from_playlist ∧ st.playing_playlist_idx ≥ 0 then
    let prv := st.playing_index - 1
    if prv ≥ 0 then
      { play_playlist_song now st st.playing_playlist_idx prv with
          playlist_song_selected := prv }
    else st
  else if (st.search_results.length : Int) > 0 then
    let prv := st.playing_index - 1
    if prv ≥ 0 then
      { play_search_result now st prv with search_selected := prv }
    else st
  else st

structure LoopOut where
  state : AppState
  consumed : Bool
  advances : Nat
deriving DecidableEq

/-- The auto-advance head of one main-loop iteration (shellbeats.c
lines 1535–1566): when something is playing and the IPC channel is
connected, either (≥ 3 s since `playback_started`) poll
`mpv_check_track_end` and on true call `play_next` once, or (< 3 s
grace period) drain and discard the buffered data.  `consumed` records
that the buffered channel data was read; `advances` counts `play_next`
calls. -/
def loop_auto_advance (st : AppState) (now : Int) (connected : Bool)
    (buf : Str) : LoopOut :=
  if 0 ≤ st.playing_index ∧ connected then
    if now - st.playback_started ≥ 3 then
      if mpv_check_track_end buf then ⟨play_next now st, true, 1⟩
      else ⟨st, true, 0⟩
    else ⟨st, true, 0⟩
  else ⟨st, false, 0⟩

/-! ## Basic facts about the scanning primitives -/

theorem isPrefixOf_append_self (l r : Str) : l.isPrefixOf (l ++ r) = true :=
  List.isPrefixOf_iff_prefix.mpr (List.prefix_append l r)

theorem isPrefixOf_mono {l s : Str} (r : Str) (h : l.isPrefixOf s = true) :
    l.isPrefixOf (s ++ r) = true :=
  List.isPrefixOf_iff_prefix.mpr
    ((List.isPrefixOf_iff_prefix.mp h).trans (List.prefix_append s r))

theorem suffixAtFirst_isSome_of_isPrefixOf {pat s : Str}
    (h : pat.isPrefixOf s = true) : (suffixAtFirst pat s).isSome := by
  cases s <;> simp [suffixAtFirst, h]

theorem suffixAtFirst_isSome_of_substring {pat s : Str} (h : pat <:+: s) :
    (suffixAtFirst pat s).isSome := by
  obtain ⟨u, v, rfl⟩ := h
  induction u with
  | nil =>
      exact suffixAtFirst_isSome_of_isPrefixOf
        (by simp [isPrefixOf_append_self pat v])
  | cons c u' ih =>
      rw [List.cons_append]
      simp only [suffixAtFirst]
      split
      · rfl
      · exact ih

theorem substring_of_suffixAtFirst {pat s t : Str}
    (h : suffixAtFirst pat s = some t) : pat <:+: s := by
  induction s with
  | nil =>
      rw [suffixAtFirst] at h
      split at h
      · rename_i hp
        exact (List.isPrefixOf_iff_prefix.mp hp).isInfix
      · cases h
  | cons c rest ih =>
      rw [suffixAtFirst] at h
      split at h
      · rename_i hp
        exact (List.isPrefixOf_iff_prefix.mp hp).isInfix
      · exact List.infix_cons (ih h)

theorem containsSubstr_of_substring {pat s : Str} (h : pat <:+: s) :
    containsSubstr pat s = true := by
  simpa [containsSubstr] using suffixAtFirst_isSome_of_substring h

theorem substring_of_containsSubstr {pat s : Str} (h : containsSubstr pat s = true) :
    pat <:+: s := by
  unfold containsSubstr at h
  cases hs : suffixAtFirst pat s with
  | none => rw [hs] at h; simp at h
  | some t => exact substring_of_suffixAtFirst hs

/-! ## C3: bounds safety of advance -/

/-- C3: at the last index of the current source (a playlist when
`playing_from_playlist` with a valid playlist index, otherwise the
search results), `play_next` leaves the whole session state unchanged;
at index 0, `play_prev` leaves it unchanged. -/
theorem advance_bounds_noop (st : AppState) (now : Int) :
    (st.playing_from_playlist = true → 0 ≤ st.playing_playlist_idx →
      st.playing_index + 1 =
        ((st.playlists.getD st.playing_playlist_idx.toNat emptyPlaylist).items.length : Int) →
      play_next now st = st)
  ∧ (st.playing_from_playlist = false →
      st.playing_index + 1 = (st.search_results.length : Int) →
      play_next now st = st)
  ∧ (st.playing_from_playlist = true → 0 ≤ st.playing_playlist_idx →
      st.playing_index = 0 → play_prev now st = st)
  ∧ (st.playing_from_playlist = false → st.playing_index = 0 →
      play_prev now st = st) := by
  refine ⟨fun h1 h2 h3 => ?_, fun h1 h3 => ?_, fun h1 h2 h3 => ?_, fun h1 h3 => ?_⟩
  · rw [play_next, if_pos ⟨by simp [h1], h2⟩, if_neg (by omega)]
  · rw [play_next, if_neg (by simp [h1])]
    split
    · rw [if_neg (by omega)]
    · rfl
  · rw [play_prev, if_pos ⟨by simp [h1], h2⟩, if_neg (by omega)]
  · rw [play_prev, if_neg (by simp [h1])]
    split
    · rw [if_neg (by omega)]
    · rfl

/-- Witness for `advance_bounds_noop`: a session playing the last (2nd)
search result; `play_next` is a no-op. -/
theorem advance_bounds_noop_witness :
    (let st : AppState :=
      ⟨[⟨['a'], ['i'], ['u'], 0⟩, ⟨['b'], ['j'], ['v'], 0⟩], [], 1, false, -1,
        false, 100, 1, 0⟩
     st.playing_from_playlist = false ∧ st.playing_index + 1 = (st.search_results.length : Int)
       ∧ play_next 200 st = st) := by
  refine ⟨rfl, by decide, (advance_bounds_noop _ 200).2.1 rfl (by decide)⟩

/-! ## C2: the end-of-file grace period -/

/-- C2: with a track playing and the IPC channel connected, a loop
iteration less than 3 seconds after `playback_started` performs no
advance (it only drains the buffered data), while an iteration at
3 seconds or later with a buffered `end-file`/`eof` event calls
`play_next` exactly once. -/
theorem grace_period (st : AppState) (now : Int) (buf : Str)
    (hplay : 0 ≤ st.playing_index) :
    (now - st.playback_started < 3 →
      loop_auto_advance st now true buf = ⟨st, true, 0⟩)
  ∧ (now - st.playback_started ≥ 3 →
      ("\x7b\"event\":\"end-file\",\"reason\":\"eof\"\x7d".toList <:+: buf) →
      loop_auto_advance st now true buf = ⟨play_next now st, true, 1⟩) := by
  constructor
  · intro hlt
    rw [loop_auto_advance, if_pos ⟨hplay, rfl⟩, if_neg (by omega)]
  · intro hge hbuf
    have hev : ("\"event\":\"end-file\"".toList : Str) <:+: buf :=
      List.IsInfix.trans (by decide) hbuf
    have hrs : ("\"reason\":\"eof\"".toList : Str) <:+: buf :=
      List.IsInfix.trans (by decide) hbuf
    have hne : buf ≠ [] := by
      intro h
      rw [h] at hbuf
      have := List.IsInfix.sublist hbuf
      simp at this
    have hchk : mpv_check_track_end buf = true := by
      rw [mpv_check_track_end, if_neg hne, containsSubstr_of_substring hev,
        containsSubstr_of_substring hrs]
      rfl
    rw [loop_auto_advance, if_pos ⟨hplay, rfl⟩, if_pos hge, if_pos hchk]

/-- Witness for `grace_period`: a concrete session 2 s after start
ignores a buffered eof event; the same session 5 s after start with the
eof event buffered advances once. -/
theorem grace_period_witness :
    (let st : AppState :=
      ⟨[⟨['a'], ['i'], ['u'], 0⟩, ⟨['b'], ['j'], ['v'], 0⟩], [], 0, false, -1,
        false, 100, 0, 0⟩
     let buf := "\x7b\"event\":\"end-file\",\"reason\":\"eof\"\x7d".toList
     (0 : Int) ≤ st.playing_index
       ∧ loop_auto_advance st 102 true buf = ⟨st, true, 0⟩
       ∧ loop_auto_advance st 105 true buf = ⟨play_next 105 st, true, 1⟩) := by
  refine ⟨by decide, (grace_period _ 102 _ (by decide)).1 (by decide),
    (grace_period _ 105 _ (by decide)).2 (by decide) (by decide)⟩

/-! ## C7: end-of-track detection -/

/-- C7: `mpv_check_track_end` answers false on any buffered data with no
`"reason":"eof"` marker (in particular when every end-file event carries
reason `error` or `stop`); and whenever it answers true, the data
contains both the `"event":"end-file"` and the `"reason":"eof"`
markers. -/
theorem track_end_eof_only (buf : Str) :
    (¬ ("\"reason\":\"eof\"".toList <:+: buf) → mpv_check_track_end buf = false)
  ∧ (mpv_check_track_end buf = true →
      ("\"event\":\"end-file\"".toList <:+: buf)
        ∧ ("\"reason\":\"eof\"".toList <:+: buf)) := by
  constructor
  · intro h
    rw [mpv_check_track_end]
    split
    · rfl
    · have : containsSubstr ("\"reason\":\"eof\"".toList) buf = false := by
        cases hc : containsSubstr ("\"reason\":\"eof\"".toList) buf
        · rfl
        · exact absurd (substring_of_containsSubstr hc) h
      rw [this, Bool.and_false]
  · intro h
    rw [mpv_check_track_end] at h
    split at h
    · cases h
    · rcases Bool.and_eq_true_iff.mp h with ⟨h1, h2⟩
      exact ⟨substring_of_containsSubstr h1, substring_of_containsSubstr h2⟩

/-- Witness for `track_end_eof_only`: an `end-file` event whose reason is
`error` does not report track end. -/
theorem track_end_eof_only_witness :
    (let buf := "\x7b\"event\":\"end-file\",\"reason\":\"error\"\x7d".toList
     ¬ ("\"reason\":\"eof\"".toList <:+: buf) ∧ mpv_check_track_end buf = false) :=
  ⟨by decide, (track_end_eof_only _).1 (by decide)⟩

/-! ## Facts about the object-scanning loop -/

/-- With fuel at least the text length the fuel never runs out: any two
sufficient fuels give the same scan result. -/
theorem scanObjects_fuel_irrelevant {α : Type} (m : Nat) (f : Str → Option α) :
    ∀ (fuel1 fuel2 c : Nat) (p : Str), p.length ≤ fuel1 → p.length ≤ fuel2 →
      scanObjects m f fuel1 c p = scanObjects m f fuel2 c p := by
  intro fuel1
  induction fuel1 with
  | zero =>
      intro fuel2 c p h1 h2
      have hp0 : p = [] := List.length_eq_zero.mp (Nat.le_zero.mp h1)
      subst hp0
      cases fuel2 with
      | zero => rfl
      | succ n => simp [scanObjects, fromFirstChar]
  | succ fuel1 ih =>
      intro fuel2 c p h1 h2
      cases fuel2 with
      | zero =>
          have hp0 : p = [] := List.length_eq_zero.mp (Nat.le_zero.mp h2)
          subst hp0
          simp [scanObjects, fromFirstChar]
      | succ fuel2 =>
          simp only [scanObjects]
          split
          · split
            · rfl
            · rename_i q hq
              split
              · rfl
              · rename_i obj rest hs
                have hrest : rest.length < p.length :=
                  Nat.lt_of_lt_of_le (splitAtCharIncl_length_lt hs)
                    (fromFirstChar_length_le hq)
                split
                · rw [ih fuel2 (c + 1) rest (by omega) (by omega)]
                · rw [ih fuel2 c rest (by omega) (by omega)]
          · rfl

theorem scanObjects_length_le {α : Type} (m : Nat) (f : Str → Option α) :
    ∀ (fuel c : Nat) (p : Str), (scanObjects m f fuel c p).length ≤ m - c := by
  intro fuel
  induction fuel with
  | zero => intro c p; simp [scanObjects]
  | succ fuel ih =>
      intro c p
      rw [scanObjects]
      split
      · rename_i hc
        split
        · simp
        · split
          · simp
          · rename_i obj rest hs
            split
            · have := ih (c + 1) rest
              simp only [List.length_cons]
              omega
            · have := ih c rest
              omega
      · simp

theorem mem_scanObjects {α : Type} {m : Nat} {f : Str → Option α} :
    ∀ (fuel c : Nat) (p : Str), ∀ a ∈ scanObjects m f fuel c p,
      ∃ obj, f obj = some a := by
  intro fuel
  induction fuel with
  | zero => intro c p a ha; simp [scanObjects] at ha
  | succ fuel ih =>
      intro c p a ha
      rw [scanObjects] at ha
      split at ha
      · split at ha
        · simp at ha
        · split at ha
          · simp at ha
          · rename_i obj rest hs
            split at ha
            · rename_i b hb
              rcases List.mem_cons.mp ha with rfl | hmem
              · exact ⟨obj, hb⟩
              · exact ih (c + 1) rest a hmem
            · exact ih c rest a ha
      · simp at ha

theorem parseSongObj_fields {obj : Str} {s : Song}
    (h : parseSongObj obj = some s) :
    s.video_id ≠ []
      ∧ json_get_string obj ("title".toList) = some s.title
      ∧ json_get_string obj ("video_id".toList) = some s.video_id := by
  unfold parseSongObj at h
  split at h
  · rename_i t v ht hv
    split at h
    · rename_i hne
      cases h
      exact ⟨hne, ht, hv⟩
    · cases h
  · cases h

/-! ## C10: capacity limits -/

/-- C10: on a playlist already holding at least `MAX_PLAYLIST_ITEMS = 500`
songs, `add_song_to_playlist` fails without touching memory or disk; and
the playlist decoder never yields more than 500 songs, whatever the
file contains. -/
theorem capacity_limits :
    (∀ (pls : List Playlist) (pidx : Int) (song : Song) (dirE : Bool)
      (disk : Str),
      0 ≤ pidx → pidx < (pls.length : Int) →
      500 ≤ (pls.getD pidx.toNat emptyPlaylist).items.length →
      add_song_to_playlist pls pidx song dirE disk = ⟨false, pls, false⟩)
  ∧ (∀ content : Str, (load_playlist_songs_text content).length ≤ 500) := by
  constructor
  · intro pls pidx song dirE disk h0 h1 hfull
    have hc : ¬ ((pls.getD pidx.toNat emptyPlaylist).items.length = 0 ∧ dirE = true) := by
      intro hx
      omega
    simp only [add_song_to_playlist,
      if_neg (show ¬ (pidx < 0 ∨ pidx ≥ (pls.length : Int)) by omega),
      if_neg hc]
    rw [if_pos hfull]
  · intro content
    rw [load_playlist_songs_text]
    split
    · simp
    · split
      · simp
      · split
        · simp
        · exact Nat.le_trans (scanObjects_length_le 500 parseSongObj _ 0 _) (by omega)

set_option maxRecDepth 40000 in
/-- Witness for `capacity_limits`: adding to a concrete 500-song playlist
fails and changes nothing. -/
theorem capacity_limits_witness :
    (let pl : Playlist := ⟨['p'], "p.json".toList,
        List.replicate 500 ⟨['t'], ['i'], ['u'], 0⟩⟩
     (0 : Int) ≤ 0 ∧ (0 : Int) < ([pl].length : Int)
       ∧ 500 ≤ ([pl].getD (0 : Int).toNat emptyPlaylist).items.length
       ∧ add_song_to_playlist [pl] 0 ⟨['x'], ['y'], ['z'], 0⟩ false []
           = ⟨false, [pl], false⟩) := by
  refine ⟨by decide, by decide, by decide, ?_⟩
  exact capacity_limits.1 _ 0 _ false [] (by decide) (by decide) (by decide)

/-! ## C5: no duplicate songs -/

theorem add_song_dup_noop {pls : List Playlist} {pidx : Int} {song : Song}
    {dirE : Bool} {disk : Str} (h0 : 0 ≤ pidx)
    (h1 : pidx < (pls.length : Int))
    (hdup : (pls.getD pidx.toNat emptyPlaylist).items.any
      (fun it => it.video_id == song.video_id) = true) :
    add_song_to_playlist pls pidx song dirE disk = ⟨false, pls, false⟩ := by
  have hne : (pls.getD pidx.toNat emptyPlaylist).items.length ≠ 0 := by
    rcases List.any_eq_true.mp hdup with ⟨it, hit, _⟩
    have := List.ne_nil_of_mem hit
    intro hl
    exact this (List.length_eq_zero.mp hl)
  have hc : ¬ ((pls.getD pidx.toNat emptyPlaylist).items.length = 0 ∧ dirE = true) := by
    intro hx
    exact hne hx.1
  simp only [add_song_to_playlist,
    if_neg (show ¬ (pidx < 0 ∨ pidx ≥ (pls.length : Int)) by omega),
    if_neg hc]
  by_cases hcap : (pls.getD pidx.toNat emptyPlaylist).items.length ≥ 500
  · rw [if_pos hcap]
  · rw [if_neg hcap, if_pos hdup]

theorem addout_ite_resolve {c1 c2 : Prop} [Decidable c1] [Decidable c2]
    {A B C D : AddOut} (h : (if c1 then A else if c2 then B else C) = D)
    (hA : A.ok ≠ D.ok) (hB : B.ok ≠ D.ok) : ¬ c1 ∧ ¬ c2 ∧ C = D := by
  split at h
  · exact absurd (congrArg AddOut.ok h) hA
  · split at h
    · exact absurd (congrArg AddOut.ok h) hB
    · rename_i h1 h2
      exact ⟨h1, h2, h⟩

/-- C5: adding a song whose `source_id` the (loaded) playlist already
holds fails with no in-memory and no on-disk mutation; and after a
successful add, re-adding the same song fails and the playlist holds
exactly one copy of that `source_id`. -/
theorem add_song_no_duplicates (pls : List Playlist) (pidx : Int)
    (song : Song) (dirE : Bool) (disk : Str) :
    ((∃ it ∈ (pls.getD pidx.toNat emptyPlaylist).items,
        it.video_id = song.video_id) →
      0 ≤ pidx → pidx < (pls.length : Int) →
      add_song_to_playlist pls pidx song dirE disk = ⟨false, pls, false⟩)
  ∧ (∀ pls1, add_song_to_playlist pls pidx song dirE disk = ⟨true, pls1, true⟩ →
      add_song_to_playlist pls1 pidx song dirE disk = ⟨false, pls1, false⟩
      ∧ (pls1.getD pidx.toNat emptyPlaylist).items.countP
          (fun it => it.video_id == song.video_id) = 1) := by
  constructor
  · intro hdup h0 h1
    rcases hdup with ⟨it, hit, hid⟩
    exact add_song_dup_noop h0 h1
      (List.any_eq_true.mpr ⟨it, hit, by simp [hid]⟩)
  · intro pls1 h
    by_cases hb : pidx < 0 ∨ pidx ≥ (pls.length : Int)
    · rw [add_song_to_playlist, if_pos hb] at h
      simp at h
    · simp only [add_song_to_playlist, if_neg hb] at h
      rcases addout_ite_resolve h (by simp) (by simp) with ⟨hcap, hdup, hC⟩
      have hdup' : (if (pls.getD pidx.toNat emptyPlaylist).items.length = 0 ∧ dirE = true
            then load_playlist_songs_text disk
            else (pls.getD pidx.toNat emptyPlaylist).items).any
          (fun it => it.video_id == song.video_id) = false := by
        cases hx : (if (pls.getD pidx.toNat emptyPlaylist).items.length = 0 ∧ dirE = true
            then load_playlist_songs_text disk
            else (pls.getD pidx.toNat emptyPlaylist).items).any
          (fun it => it.video_id == song.video_id)
        · rfl
        · exact absurd hx hdup
      injection hC with hok hpls hsv
      have hlt : pidx.toNat < pls.length := by omega
      have hgd : pls1.getD pidx.toNat emptyPlaylist
          = { pls.getD pidx.toNat emptyPlaylist with
                items := (if (pls.getD pidx.toNat emptyPlaylist).items.length = 0 ∧ dirE = true
                          then load_playlist_songs_text disk
                          else (pls.getD pidx.toNat emptyPlaylist).items)
                  ++ [⟨song.title, song.video_id, urlOfVideoId song.video_id,
                        song.duration⟩] } := by
        rw [← hpls, List.getD_eq_getElem _ _ (by simpa using hlt)]
        exact List.getElem_set_self (by simpa using hlt)
      have hlen : pls1.length = pls.length := by
        rw [← hpls]
        simp
      constructor
      · refine add_song_dup_noop (by omega) (by rw [hlen]; omega) ?_
        rw [hgd]
        simp
      · rw [hgd]
        simp only [List.countP_append]
        rw [List.countP_eq_zero.mpr, List.countP_cons]
        · simp
        · intro a ha
          have := List.any_eq_false.mp hdup' a ha
          simpa using this

/-- Witness for `add_song_no_duplicates`: a concrete loaded playlist
already holding source id `id1`; re-adding a song with that id fails
and changes nothing. -/
theorem add_song_no_duplicates_witness :
    (let pls : List Playlist := [⟨['p'], "p.json".toList,
        [⟨['t'], "id1".toList, ['u'], 0⟩]⟩]
     let song : Song := ⟨['s'], "id1".toList, ['v'], 0⟩
     (∃ it ∈ (pls.getD (0 : Int).toNat emptyPlaylist).items,
        it.video_id = song.video_id)
       ∧ add_song_to_playlist pls 0 song false [] = ⟨false, pls, false⟩) :=
  ⟨by decide, (add_song_no_duplicates _ 0 _ false []).1 (by decide) (by decide)
    (by decide)⟩

/-! ## C4: duplicate-name rejection -/

theorem ciEq_refl (a : Str) : ciEq a a = true := by
  simp [ciEq]

theorem create_playlist_dup {pls : List Playlist} {m : Str}
    (hcap : pls.length < 50) (hne : m ≠ [])
    (hdup : pls.any (fun p => ciEq p.name m) = true) :
    create_playlist pls m = ⟨-2, pls⟩ := by
  rw [create_playlist, if_neg (by omega), if_neg hne, if_pos hdup]

theorem create_playlist_success {pls : List Playlist} {m : Str}
    (hcap : pls.length < 50) (hne : m ≠ [])
    (hnd : pls.any (fun p => ciEq p.name m) = false) :
    ∃ fn, create_playlist pls m = ⟨(pls.length : Int), pls ++ [⟨m, fn, []⟩]⟩ := by
  rw [create_playlist, if_neg (by omega), if_neg hne, if_neg (by simp [hnd])]
  exact ⟨_, rfl⟩

/-- A library already at `MAX_PLAYLISTS = 50` that contains the name
`a`. -/
def fullLibrary : List Playlist :=
  ⟨['a'], "a.json".toList, []⟩ ::
    (List.range 49).map (fun i => ⟨'p' :: List.replicate i 'q', [], []⟩)

set_option maxRecDepth 40000 in
/-- Counterexample to C4 as stated: at a full library (50 playlists)
containing the name `a`, `create_playlist` with the duplicate name `a`
returns the capacity failure `-1`, not the DuplicateName failure `-2`. -/
theorem create_duplicate_at_capacity_cex :
    (∃ p ∈ fullLibrary, ciEq p.name ['a'] = true)
      ∧ (create_playlist fullLibrary ['a']).code = -1
      ∧ (create_playlist fullLibrary ['a']).code ≠ -2 := by
  refine ⟨⟨⟨['a'], "a.json".toList, []⟩, by simp [fullLibrary], by decide⟩, ?_, ?_⟩
  · rw [create_playlist, if_pos (by simp [fullLibrary])]
  · rw [create_playlist, if_pos (by simp [fullLibrary])]
    decide

/-- C4 (amended): below capacity, creating a playlist whose non-empty
name case-insensitively matches an existing one fails with the
DuplicateName code `-2` and leaves the library unchanged; and starting
from a library of at most 48 playlists, two consecutive creates with
the same non-empty name always fail the second time with `-2`. -/
theorem create_duplicate_rejected (pls : List Playlist) (m : Str) :
    (pls.length < 50 → m ≠ [] → (∃ p ∈ pls, ciEq p.name m = true) →
      create_playlist pls m = ⟨-2, pls⟩)
  ∧ (pls.length ≤ 48 → m ≠ [] →
      (create_playlist (create_playlist pls m).playlists m).code = -2) := by
  constructor
  · rintro hcap hne ⟨p, hp, hci⟩
    exact create_playlist_dup hcap hne (List.any_eq_true.mpr ⟨p, hp, hci⟩)
  · intro hcap hne
    cases hd : pls.any (fun p => ciEq p.name m) with
    | true =>
        rw [create_playlist_dup (by omega) hne hd]
        show (create_playlist pls m).code = -2
        rw [create_playlist_dup (by omega) hne hd]
    | false =>
        obtain ⟨fn, hout⟩ := create_playlist_success (by omega) hne hd
        rw [hout]
        show (create_playlist (pls ++ [⟨m, fn, []⟩]) m).code = -2
        rw [create_playlist_dup (by simp; omega) hne
          (by rw [List.any_append]; simp [ciEq_refl])]

/-- Witness for `create_duplicate_rejected`: creating `ROAD` over an
existing `Road` fails with `-2` and leaves the library unchanged. -/
theorem create_duplicate_rejected_witness :
    (let pls : List Playlist := [⟨"Road".toList, "road.json".toList, []⟩]
     pls.length < 50 ∧ "ROAD".toList ≠ ([] : Str)
       ∧ (∃ p ∈ pls, ciEq p.name ("ROAD".toList) = true)
       ∧ create_playlist pls ("ROAD".toList) = ⟨-2, pls⟩
       ∧ (create_playlist (create_playlist pls ("ROAD".toList)).playlists
            ("ROAD".toList)).code = -2) :=
  ⟨by decide, by decide, by decide,
    (create_duplicate_rejected _ _).1 (by decide) (by decide) (by decide),
    (create_duplicate_rejected _ _).2 (by decide) (by decide)⟩

/-! ## C6: deletion reindexing -/

/-- C6: deleting a valid index removes exactly that playlist (everything
after it shifts down one place, order preserved), unlinks exactly that
playlist's file from the on-disk directory, and every other file —
in particular every other playlist's file, their storage keys being
pairwise distinct per the data model — survives unchanged. -/
theorem delete_playlist_reindex (pls : List Playlist)
    (disk : List (Str × Str)) (i : Nat) (hi : i < pls.length)
    (hdist : pls.Pairwise (fun a b => a.filename ≠ b.filename)) :
    delete_playlist pls disk (i : Int)
      = (true, pls.take i ++ pls.drop (i + 1),
          disk.filter (fun e => e.1 != pls[i].filename))
    ∧ (∀ e ∈ (delete_playlist pls disk (i : Int)).2.2,
        e.1 ≠ pls[i].filename ∧ e ∈ disk)
    ∧ (∀ e ∈ disk, e.1 ≠ pls[i].filename →
        e ∈ (delete_playlist pls disk (i : Int)).2.2)
    ∧ (∀ j, (hj : j < pls.length) → j ≠ i → ∀ e ∈ disk,
        e.1 = pls[j].filename →
        e ∈ (delete_playlist pls disk (i : Int)).2.2) := by
  have hb : ¬ ((i : Int) < 0 ∨ (i : Int) ≥ (pls.length : Int)) := by omega
  have hdel : delete_playlist pls disk (i : Int)
      = (true, pls.take i ++ pls.drop (i + 1),
          disk.filter (fun e => e.1 != pls[i].filename)) := by
    rw [delete_playlist, if_neg hb]
    simp only [Int.toNat_natCast, List.getD_eq_getElem _ _ hi,
      List.eraseIdx_eq_take_drop_succ]
  refine ⟨hdel, ?_, ?_, ?_⟩
  · intro e he
    rw [hdel] at he
    rcases List.mem_filter.mp he with ⟨hmem, hp⟩
    exact ⟨by simpa using hp, hmem⟩
  · intro e he hne
    rw [hdel]
    exact List.mem_filter.mpr ⟨he, by simpa using hne⟩
  · intro j hj hji e he hfn
    have hfn' : pls[j].filename ≠ pls[i].filename := by
      rcases Nat.lt_or_ge j i with hlt | hge
      · exact List.pairwise_iff_getElem.mp hdist j i hj hi hlt
      · have hlt' : i < j := by omega
        exact fun hc =>
          (List.pairwise_iff_getElem.mp hdist i j hi hj hlt') hc.symm
    rw [hdel]
    exact List.mem_filter.mpr ⟨he, by simp [hfn, hfn']⟩

/-- Witness for `delete_playlist_reindex`: deleting index 0 of a
two-playlist library removes `a.json` from disk and keeps `b.json`. -/
theorem delete_playlist_reindex_witness :
    (let pls : List Playlist :=
      [⟨['a'], "a.json".toList, []⟩, ⟨['b'], "b.json".toList, []⟩]
     let disk : List (Str × Str) :=
      [("a.json".toList, ['x']), ("b.json".toList, ['y'])]
     0 < pls.length
       ∧ pls.Pairwise (fun a b => a.filename ≠ b.filename)
       ∧ delete_playlist pls disk ((0 : Nat) : Int)
          = (true, [⟨['b'], "b.json".toList, []⟩], [("b.json".toList, ['y'])])) := by
  refine ⟨by decide, by decide, ?_⟩
  have h := (delete_playlist_reindex
    [⟨['a'], "a.json".toList, []⟩, ⟨['b'], "b.json".toList, []⟩]
    [("a.json".toList, ['x']), ("b.json".toList, ['y'])] 0 (by decide)
    (by decide)).1
  rw [h]
  decide

/-! ## C8: decoder field tolerance -/

/-- C8 (amended): every song the playlist decoder yields has a non-empty
source id and came from an object slice whose `title` AND `video_id`
fields were both successfully extracted — entries with an empty or
missing `video_id` are dropped, and entries with a missing `title` are
dropped as well (no placeholder is substituted at decode time). -/
theorem decoder_drops_incomplete (content : Str) (s : Song)
    (h : s ∈ load_playlist_songs_text content) :
    s.video_id ≠ []
      ∧ ∃ obj, json_get_string obj ("title".toList) = some s.title
          ∧ json_get_string obj ("video_id".toList) = some s.video_id := by
  rw [load_playlist_songs_text] at h
  split at h
  · simp at h
  · split at h
    · simp at h
    · split at h
      · simp at h
      · obtain ⟨obj, hobj⟩ := mem_scanObjects _ 0 _ s h
        obtain ⟨h1, h2, h3⟩ := parseSongObj_fields hobj
        exact ⟨h1, obj, h2, h3⟩

/-- Counterexample to C8 as stated: an object carrying a `video_id` but
no `title` field decodes to nothing — the entry is dropped rather than
given a placeholder title. -/
theorem decoder_missing_title_cex :
    json_get_string ("\x7b\"video_id\": \"abc123\"\x7d".toList) ("video_id".toList)
        = some ("abc123".toList)
      ∧ json_get_string ("\x7b\"video_id\": \"abc123\"\x7d".toList) ("title".toList)
        = none
      ∧ load_playlist_songs_text
          ("\x7b\"name\": \"x\", \"songs\": [\n \x7b\"video_id\": \"abc123\"\x7d\n]\x7d".toList)
        = [] := by
  decide

/-- Witness for `decoder_drops_incomplete` at a concrete decoded song. -/
theorem decoder_drops_incomplete_witness :
    (let c : Str := "\x7b\"songs\": [ \x7b\"title\": \"t\", \"video_id\": \"ab\"\x7d ]\x7d".toList
     let s : Song := ⟨['t'], "ab".toList, urlOfVideoId ("ab".toList), 0⟩
     s ∈ load_playlist_songs_text c
       ∧ s.video_id ≠ []
       ∧ ∃ obj, json_get_string obj ("title".toList) = some s.title
           ∧ json_get_string obj ("video_id".toList) = some s.video_id) :=
  ⟨by decide,
    decoder_drops_incomplete
      ("\x7b\"songs\": [ \x7b\"title\": \"t\", \"video_id\": \"ab\"\x7d ]\x7d".toList)
      ⟨['t'], "ab".toList, urlOfVideoId ("ab".toList), 0⟩ (by decide)⟩

/-! ## C9: storage-key uniqueness -/

/-- C9 evaluated at the failing input: creating `3 a`, `a`, `b`, `a!`
in order yields storage keys `3_a.json`, `a.json`, `b.json`, `3_a.json`
— the collision-disambiguated key of `a!` (prefix `3_`) collides with
the existing key of `3 a` because the prefixed candidate is never
re-checked, so the keys are not pairwise distinct. -/
theorem storage_key_collision_eval :
    ((["3 a".toList, "a".toList, "b".toList, "a!".toList]).foldl
        (fun pls n => (create_playlist pls n).playlists) []).map
        (fun p => p.filename)
      = ["3_a.json".toList, "a.json".toList, "b.json".toList, "3_a.json".toList]
    ∧ ¬ ((["3 a".toList, "a".toList, "b".toList, "a!".toList]).foldl
        (fun pls n => (create_playlist pls n).playlists) []).Pairwise
        (fun a b => a.filename ≠ b.filename) := by
  decide

/-! ## C1: the round trip

The machinery below establishes exactly when the scanning decoder
inverts the encoders.  A character is *plain* when `json_escape_string`
copies it unchanged; the crucial structural fact is that every `"` in an
escaped string is the second byte of a `\"` pair, so a `"key"` label
pattern can only match inside an escaped value in two precisely
characterisable situations (value equal to `key`, or value ending in
`"key`). -/

def PlainChar (c : Char) : Prop :=
  c ≠ '"' ∧ c ≠ '\\' ∧ c ≠ '\n' ∧ c ≠ '\r' ∧ c ≠ '\t'

instance (c : Char) : Decidable (PlainChar c) := by
  unfold PlainChar
  infer_instance

theorem escChar_cases (c : Char) :
    (escChar c = ['\\', c] ∧ (c = '"' ∨ c = '\\'))
    ∨ (escChar c = ['\\', 'n'] ∧ c = '\n')
    ∨ (escChar c = ['\\', 'r'] ∧ c = '\r')
    ∨ (escChar c = ['\\', 't'] ∧ c = '\t')
    ∨ (escChar c = [c] ∧ PlainChar c) := by
  by_cases h1 : c = '"' ∨ c = '\\'
  · exact Or.inl ⟨by rw [escChar, if_pos h1], h1⟩
  · by_cases h2 : c = '\n'
    · exact Or.inr (Or.inl ⟨by rw [escChar, if_neg h1, if_pos h2], h2⟩)
    · by_cases h3 : c = '\r'
      · exact Or.inr (Or.inr (Or.inl
          ⟨by rw [escChar, if_neg h1, if_neg h2, if_pos h3], h3⟩))
      · by_cases h4 : c = '\t'
        · exact Or.inr (Or.inr (Or.inr (Or.inl
            ⟨by rw [escChar, if_neg h1, if_neg h2, if_neg h3, if_pos h4], h4⟩)))
        · refine Or.inr (Or.inr (Or.inr (Or.inr
            ⟨by rw [escChar, if_neg h1, if_neg h2, if_neg h3, if_neg h4], ?_⟩)))
          exact ⟨fun hc => h1 (Or.inl hc), fun hc => h1 (Or.inr hc), h2, h3, h4⟩

theorem escChar_of_plain {c : Char} (h : PlainChar c) : escChar c = [c] := by
  rcases escChar_cases c with ⟨_, h1⟩ | ⟨_, h1⟩ | ⟨_, h1⟩ | ⟨_, h1⟩ | ⟨he, _⟩
  · rcases h1 with h1 | h1
    · exact absurd h1 h.1
    · exact absurd h1 h.2.1
  · exact absurd h1 h.2.2.1
  · exact absurd h1 h.2.2.2.1
  · exact absurd h1 h.2.2.2.2
  · exact he

theorem json_escape_string_cons (c : Char) (s : Str) :
    json_escape_string (c :: s) = escChar c ++ json_escape_string s := by
  simp [json_escape_string]

theorem unescape_backslash (d : Char) (rest : Str) :
    unescape ('\\' :: d :: rest) =
      (if d = 'n' then '\n'
       else if d = 'r' then '\r'
       else if d = 't' then '\t'
       else d) :: unescape rest := by
  simp [unescape]

theorem unescape_plain {c : Char} (h : c ≠ '\\') (rest : Str) :
    unescape (c :: rest) = c :: unescape rest := by
  rw [unescape.eq_4] <;> intros <;> simp_all

theorem rawSpan_quote (rest : Str) : rawSpan ('"' :: rest) = [] := by
  simp [rawSpan]

theorem rawSpan_backslash (d : Char) (rest : Str) :
    rawSpan ('\\' :: d :: rest) = '\\' :: d :: rawSpan rest := by
  simp [rawSpan]

theorem rawSpan_plain {c : Char} (h1 : c ≠ '"') (h2 : c ≠ '\\') (rest : Str) :
    rawSpan (c :: rest) = c :: rawSpan rest := by
  rw [rawSpan.eq_5] <;> intros <;> simp_all

theorem unescape_escape (s : Str) : unescape (json_escape_string s) = s := by
  induction s with
  | nil => rfl
  | cons c s ih =>
      rw [json_escape_string_cons]
      rcases escChar_cases c with ⟨he, hc⟩ | ⟨he, hc⟩ | ⟨he, hc⟩ | ⟨he, hc⟩
        | ⟨he, hc⟩ <;> rw [he]
      · rcases hc with hc | hc <;> subst hc <;>
          simp [unescape_backslash, ih]
      · subst hc; simp [unescape_backslash, ih]
      · subst hc; simp [unescape_backslash, ih]
      · subst hc; simp [unescape_backslash, ih]
      · rw [List.cons_append, List.nil_append, unescape_plain hc.2.1, ih]

theorem rawSpan_escape (s : Str) (r : Str) :
    rawSpan (json_escape_string s ++ '"' :: r) = json_escape_string s := by
  induction s with
  | nil => simp [rawSpan_quote, json_escape_string]
  | cons c s ih =>
      rw [json_escape_string_cons]
      rcases escChar_cases c with ⟨he, hc⟩ | ⟨he, hc⟩ | ⟨he, hc⟩ | ⟨he, hc⟩
        | ⟨he, hc⟩ <;> rw [he] <;>
        simp only [List.cons_append, List.nil_append, List.append_assoc]
      · rw [rawSpan_backslash, ih]
      · rw [rawSpan_backslash, ih]
      · rw [rawSpan_backslash, ih]
      · rw [rawSpan_backslash, ih]
      · rw [rawSpan_plain hc.1 hc.2.1, ih]

/-! ### Scanning-navigation lemmas -/

theorem suffix_append_cases {u a b : Str} (h : u <:+ a ++ b) :
    u <:+ b ∨ ∃ u', u' <:+ a ∧ u = u' ++ b := by
  induction a with
  | nil => exact Or.inl h
  | cons c a' ih =>
      rcases List.suffix_cons_iff.mp h with h1 | h2
      · exact Or.inr ⟨c :: a', List.suffix_refl _, h1⟩
      · rcases ih h2 with h3 | ⟨u', hu, he⟩
        · exact Or.inl h3
        · exact Or.inr ⟨u', hu.trans (List.suffix_cons c a'), he⟩

/-- No occurrence of `pat` starts strictly inside `x` when `rest`
follows it. -/
def SafePre (pat x rest : Str) : Prop :=
  ∀ u, u <:+ x → u ≠ [] → pat.isPrefixOf (u ++ rest) = false

theorem SafePre.append {pat a b rest : Str} (ha : SafePre pat a (b ++ rest))
    (hb : SafePre pat b rest) : SafePre pat (a ++ b) rest := by
  intro u hu hne
  rcases suffix_append_cases hu with h | ⟨u', hu', rfl⟩
  · exact hb u h hne
  · cases u' with
    | nil => exact hb b (List.suffix_refl _) (by simp at hne; exact hne)
    | cons c u'' =>
        have := ha (c :: u'') hu' (by simp)
        simpa [List.append_assoc] using this

theorem dropThroughFirst_append_of_safe {pat x rest : Str}
    (h : SafePre pat x rest) :
    dropThroughFirst pat (x ++ rest) = dropThroughFirst pat rest := by
  induction x with
  | nil => simp
  | cons c x' ih =>
      have hfalse : pat.isPrefixOf (c :: (x' ++ rest)) = false := by
        have := h (c :: x') (List.suffix_refl _) (by simp)
        simpa using this
      rw [List.cons_append, dropThroughFirst, hfalse]
      simp only [Bool.false_eq_true, if_false]
      exact ih (fun u hu hne => h u (hu.trans (List.suffix_cons c x')) hne)

theorem dropThroughFirst_self {pat : Str} (hpat : pat ≠ []) (X : Str) :
    dropThroughFirst pat (pat ++ X) = some X := by
  cases pat with
  | nil => exact absurd rfl hpat
  | cons c w =>
      have hpre : (c :: w).isPrefixOf (c :: (w ++ X)) = true := by
        have h0 := isPrefixOf_append_self (c :: w) X
        rw [List.cons_append] at h0
        exact h0
      rw [List.cons_append, dropThroughFirst, hpre]
      simp only [if_true]
      congr 1
      have : (c :: (w ++ X)) = (c :: w) ++ X := by simp
      rw [this, List.drop_left]

theorem suffixAtFirst_append_of_found {pat : Str} (hpat : pat ≠ []) :
    ∀ {x : Str}, (suffixAtFirst pat x).isSome → ∀ B,
      ∃ t, t <:+ x ∧ suffixAtFirst pat (x ++ B) = some (t ++ B) := by
  intro x
  induction x with
  | nil =>
      intro hx
      cases pat with
      | nil => exact absurd rfl hpat
      | cons c w => simp [suffixAtFirst, List.isPrefixOf] at hx
  | cons c x' ih =>
      intro hx B
      by_cases hp : pat.isPrefixOf ((c :: x') ++ B) = true
      · refine ⟨c :: x', List.suffix_refl _, ?_⟩
        rw [List.cons_append, suffixAtFirst]
        rw [show pat.isPrefixOf (c :: (x' ++ B))
              = pat.isPrefixOf ((c :: x') ++ B) by simp, hp]
        simp
      · have hp2 : pat.isPrefixOf (c :: x') = false := by
          cases hpp : pat.isPrefixOf (c :: x')
          · rfl
          · exact absurd (isPrefixOf_mono B hpp) (by simpa using hp)
        have hx' : (suffixAtFirst pat x').isSome := by
          rw [suffixAtFirst, hp2] at hx
          simpa using hx
        obtain ⟨t, ht, he⟩ := ih hx' B
        refine ⟨t, ht.trans (List.suffix_cons c x'), ?_⟩
        rw [List.cons_append, suffixAtFirst,
          show pat.isPrefixOf (c :: (x' ++ B))
            = pat.isPrefixOf ((c :: x') ++ B) by simp]
        rw [if_neg hp]
        exact he

theorem fromFirstChar_cons_self (ch : Char) (r : Str) :
    fromFirstChar ch (ch :: r) = some (ch :: r) := by
  simp [fromFirstChar]

theorem fromFirstChar_append_not_mem {ch : Char} {a : Str}
    (h : ∀ c ∈ a, c ≠ ch) (b : Str) :
    fromFirstChar ch (a ++ b) = fromFirstChar ch b := by
  induction a with
  | nil => simp
  | cons c a' ih =>
      rw [List.cons_append, fromFirstChar,
        if_neg (h c (List.mem_cons_self c a'))]
      exact ih (fun x hx => h x (List.mem_cons_of_mem c hx))

theorem fromFirstChar_none_of_not_mem {ch : Char} {s : Str}
    (h : ∀ c ∈ s, c ≠ ch) : fromFirstChar ch s = none := by
  induction s with
  | nil => rfl
  | cons c s' ih =>
      rw [fromFirstChar, if_neg (h c (List.mem_cons_self c s'))]
      exact ih (fun x hx => h x (List.mem_cons_of_mem c hx))

theorem splitAtCharIncl_append {ch : Char} {a : Str}
    (h : ∀ c ∈ a, c ≠ ch) (b : Str) :
    splitAtCharIncl ch (a ++ ch :: b) = some (a ++ [ch], b) := by
  induction a with
  | nil => simp [splitAtCharIncl]
  | cons c a' ih =>
      rw [List.cons_append, splitAtCharIncl,
        if_neg (h c (List.mem_cons_self c a')),
        ih (fun x hx => h x (List.mem_cons_of_mem c hx))]
      simp

/-! ### Where a `"key"` label pattern can match inside an escaped value -/

theorem isPrefixOf_cons_ne {a b : Char} (h : a ≠ b) (w v : Str) :
    (a :: w).isPrefixOf (b :: v) = false := by
  have hab : (a == b) = false := beq_eq_false_iff_ne.mpr h
  simp [List.isPrefixOf, hab]

/-- Matching `w"` (plain `w`) against an escaped value followed by a
quote pins the value to exactly `w`: plain pattern characters can only
be matched by plain value characters, and the final `"` can only be the
closing delimiter (every `"` inside the escaped value sits right after
a `\`). -/
theorem isPrefixOf_escape_pin :
    ∀ (w : Str), (∀ c ∈ w, PlainChar c) →
    ∀ (t X : Str), X.head? = some '"' →
      (w ++ ['"']).isPrefixOf (json_escape_string t ++ X) = true → t = w := by
  intro w
  induction w with
  | nil =>
      intro _ t X hX hp
      cases t with
      | nil => rfl
      | cons c t' =>
          exfalso
          rw [json_escape_string_cons, List.nil_append] at hp
          rcases escChar_cases c with ⟨he, hc⟩ | ⟨he, hc⟩ | ⟨he, hc⟩
            | ⟨he, hc⟩ | ⟨he, hc⟩ <;> rw [he] at hp <;>
            simp only [List.cons_append, List.nil_append, List.append_assoc] at hp
          · rw [isPrefixOf_cons_ne (by decide) _ _] at hp
            exact Bool.false_ne_true hp
          · rw [isPrefixOf_cons_ne (by decide) _ _] at hp
            exact Bool.false_ne_true hp
          · rw [isPrefixOf_cons_ne (by decide) _ _] at hp
            exact Bool.false_ne_true hp
          · rw [isPrefixOf_cons_ne (by decide) _ _] at hp
            exact Bool.false_ne_true hp
          · rw [isPrefixOf_cons_ne (fun hq => hc.1 hq.symm) _ _] at hp
            exact Bool.false_ne_true hp
  | cons a w' ih =>
      intro hw t X hX hp
      have haPlain : PlainChar a := hw a (List.mem_cons_self a w')
      cases t with
      | nil =>
          exfalso
          rw [show json_escape_string [] = [] from rfl, List.nil_append] at hp
          cases X with
          | nil => cases hX
          | cons x X' =>
              have hx : x = '"' := by
                simp [List.head?] at hX
                exact hX
              subst hx
              rw [List.cons_append,
                isPrefixOf_cons_ne haPlain.1 _ _] at hp
              exact Bool.false_ne_true hp
      | cons c t' =>
          rw [json_escape_string_cons] at hp
          rcases escChar_cases c with ⟨he, hc⟩ | ⟨he, hc⟩ | ⟨he, hc⟩
            | ⟨he, hc⟩ | ⟨he, hc⟩ <;> rw [he] at hp <;>
            simp only [List.cons_append, List.nil_append, List.append_assoc] at hp
          · rw [isPrefixOf_cons_ne haPlain.2.1 _ _] at hp
            exact absurd hp Bool.false_ne_true
          · rw [isPrefixOf_cons_ne haPlain.2.1 _ _] at hp
            exact absurd hp Bool.false_ne_true
          · rw [isPrefixOf_cons_ne haPlain.2.1 _ _] at hp
            exact absurd hp Bool.false_ne_true
          · rw [isPrefixOf_cons_ne haPlain.2.1 _ _] at hp
            exact absurd hp Bool.false_ne_true
          · simp only [List.isPrefixOf, Bool.and_eq_true_iff, beq_iff_eq] at hp
            rcases hp with ⟨hac, hp⟩
            subst hac
            rw [ih (fun x hx => hw x (List.mem_cons_of_mem a hx)) t' X hX hp]

/-- No occurrence of the label pattern `"w"` starts strictly inside the
escaped value of a field, provided the value does not end in `"w`. -/
theorem safePre_inside_escape (w : Str) (hw : ∀ c ∈ w, PlainChar c) :
    ∀ (t : Str), ¬ ('"' :: w <:+ t) → ∀ (rest : Str), rest.head? = some '"' →
      ∀ u, u <:+ json_escape_string t → u ≠ [] →
        ('"' :: w ++ ['"']).isPrefixOf (u ++ rest) = false := by
  intro t
  induction t with
  | nil =>
      intro _ rest _ u hu hne
      rw [show json_escape_string [] = [] from rfl] at hu
      exact absurd (List.suffix_nil.mp hu) hne
  | cons c t' ih =>
      intro h2 rest hrest u hu hne
      have h2' : ¬ ('"' :: w <:+ t') :=
        fun hs => h2 (hs.trans (List.suffix_cons c t'))
      rw [json_escape_string_cons] at hu
      rcases suffix_append_cases hu with hu' | ⟨u', hu'', rfl⟩
      · exact ih h2' rest hrest u hu' hne
      · cases u' with
        | nil =>
            rw [List.nil_append] at hne ⊢
            exact ih h2' rest hrest _ (List.suffix_refl _) hne
        | cons a u'' =>
            rcases escChar_cases c with ⟨he, hc⟩ | ⟨he, hc⟩ | ⟨he, hc⟩
              | ⟨he, hc⟩ | ⟨he, hc⟩ <;> rw [he] at hu''
            · -- escChar c = ['\\', c], c = '"' or '\\'
              rcases List.suffix_cons_iff.mp hu'' with heq | hsuf
              · -- a :: u'' = ['\\', c]
                rw [heq]
                exact isPrefixOf_cons_ne (by decide) _ _
              · rcases List.suffix_cons_iff.mp hsuf with heq | hsuf2
                · -- a :: u'' = [c]
                  rw [heq]
                  rcases hc with hc | hc <;> subst hc
                  · -- c = '"' : the one interesting position
                    simp only [List.cons_append, List.append_assoc]
                    cases hb : (w ++ ['"']).isPrefixOf
                        (json_escape_string t' ++ rest) with
                    | false =>
                        simp [List.isPrefixOf, hb]
                    | true =>
                        exfalso
                        have hpin := isPrefixOf_escape_pin w hw t' rest hrest hb
                        apply h2
                        rw [hpin]
                  · exact isPrefixOf_cons_ne (by decide) _ _
                · exact absurd (List.suffix_nil.mp hsuf2) (by simp)
            · rcases List.suffix_cons_iff.mp hu'' with heq | hsuf
              · rw [heq]
                exact isPrefixOf_cons_ne (by decide) _ _
              · rcases List.suffix_cons_iff.mp hsuf with heq | hsuf2
                · rw [heq]
                  exact isPrefixOf_cons_ne (by decide) _ _
                · exact absurd (List.suffix_nil.mp hsuf2) (by simp)
            · rcases List.suffix_cons_iff.mp hu'' with heq | hsuf
              · rw [heq]
                exact isPrefixOf_cons_ne (by decide) _ _
              · rcases List.suffix_cons_iff.mp hsuf with heq | hsuf2
                · rw [heq]
                  exact isPrefixOf_cons_ne (by decide) _ _
                · exact absurd (List.suffix_nil.mp hsuf2) (by simp)
            · rcases List.suffix_cons_iff.mp hu'' with heq | hsuf
              · rw [heq]
                exact isPrefixOf_cons_ne (by decide) _ _
              · rcases List.suffix_cons_iff.mp hsuf with heq | hsuf2
                · rw [heq]
                  exact isPrefixOf_cons_ne (by decide) _ _
                · exact absurd (List.suffix_nil.mp hsuf2) (by simp)
            · -- escChar c = [c], c plain
              rcases List.suffix_cons_iff.mp hu'' with heq | hsuf
              · rw [heq]
                exact isPrefixOf_cons_ne (fun hq => hc.1 hq.symm) _ _
              · exact absurd (List.suffix_nil.mp hsuf) (by simp)

/-- The full guard for the second field of an object: no occurrence of
`"w"` starts inside `"<esc t>", ` when the value `t` is neither `w` nor
ends in `"w`. -/
theorem safePre_quoted_value (w : Str) (hw : ∀ c ∈ w, PlainChar c)
    (t : Str) (rest : Str) (hrest : rest.head? = some '"')
    (h1 : t ≠ w) (h2 : ¬ ('"' :: w <:+ t)) :
    SafePre ('"' :: w ++ ['"']) ('"' :: json_escape_string t) rest := by
  intro u hu hne
  rcases List.suffix_cons_iff.mp hu with rfl | hu'
  · cases hb : (w ++ ['"']).isPrefixOf (json_escape_string t ++ rest) with
    | false => simp [List.isPrefixOf, hb, List.append_assoc]
    | true => exact absurd (isPrefixOf_escape_pin w hw t rest hrest hb) h1
  · exact safePre_inside_escape w hw t h2 rest hrest u hu' hne

/-! ### Extracting a field from an encoded object slice -/

theorem safePre_singleton {c d : Char} {w rest : Str} (h : d ≠ c) :
    SafePre (d :: w) [c] rest := by
  intro u hu hne
  have hu' : u = [c] := by
    rcases List.suffix_cons_iff.mp hu with h1 | h1
    · exact h1
    · exact absurd (List.suffix_nil.mp h1) hne
  rw [hu']
  exact isPrefixOf_cons_ne h _ _

/-- `json_get_string` on text of the shape
`pre ++ "key": "<esc t>"<mid>` returns `t`, provided no match of the
`"key"` pattern starts inside `pre`. -/
theorem json_get_of_safePre (key t pre mid : Str)
    (hsafe : SafePre ('"' :: key ++ ['"']) pre
      (('"' :: key ++ ['"'])
        ++ (':' :: ' ' :: '"' :: (json_escape_string t ++ '"' :: mid)))) :
    json_get_string
      (pre ++ (('"' :: key ++ ['"'])
        ++ (':' :: ' ' :: '"' :: (json_escape_string t ++ '"' :: mid))))
      key = some t := by
  have hdw : (':' :: ' ' :: '"' :: (json_escape_string t ++ '"' :: mid)).dropWhile
      isSepChar = '"' :: (json_escape_string t ++ '"' :: mid) := by
    simp [List.dropWhile, isSepChar]
  simp only [json_get_string, dropThroughFirst_append_of_safe hsafe,
    dropThroughFirst_self (show ('"' :: key ++ ['"']) ≠ [] by simp), hdw,
    rawSpan_escape, unescape_escape]

/-- The object slice the scanner hands to `json_get_string`, as produced
by the encoders: `{"ka": "<esc ta>", "kb": "<esc tb>"}`. -/
def objText (ka ta kb tb : Str) : Str :=
  '\x7b' :: (('"' :: ka ++ ['"'])
    ++ (':' :: ' ' :: '"' :: (json_escape_string ta
      ++ '"' :: (',' :: ' ' :: (('"' :: kb ++ ['"'])
        ++ (':' :: ' ' :: '"' :: (json_escape_string tb ++ '"' :: ['\x7d'])))))))

theorem json_get_objText_first (ka ta kb tb : Str) (hka : '"' ≠ '\x7b') :
    json_get_string (objText ka ta kb tb) ka = some ta := by
  have hshape : objText ka ta kb tb
      = ['\x7b'] ++ (('"' :: ka ++ ['"'])
        ++ (':' :: ' ' :: '"' :: (json_escape_string ta
          ++ '"' :: (',' :: ' ' :: (('"' :: kb ++ ['"'])
            ++ (':' :: ' ' :: '"' :: (json_escape_string tb
              ++ '"' :: ['\x7d']))))))) := rfl
  rw [hshape]
  exact json_get_of_safePre ka ta ['\x7b'] _ (safePre_singleton hka)

/-- Re-association of the object slice exposing the second field's
label, the first field's quoted value and the `", "` separator. -/
theorem objText_second_shape (ka ta kb tb : Str) :
    objText ka ta kb tb
      = (('\x7b' :: (('"' :: ka ++ ['"']) ++ [':', ' ']))
          ++ (('"' :: json_escape_string ta) ++ ['"', ',', ' ']))
        ++ (('"' :: kb ++ ['"'])
          ++ (':' :: ' ' :: '"' :: (json_escape_string tb ++ '"' :: ['\x7d']))) := by
  simp [objText, List.append_assoc]

theorem isPrefixOf_cons2_ne {a b c : Char} (h : b ≠ c) (w v : Str) :
    (a :: b :: w).isPrefixOf (a :: c :: v) = false := by
  simp [List.isPrefixOf, beq_eq_false_iff_ne.mpr h]

theorem safePre_quote_comma_space {b : Char} {w' rest : Str} (hb : b ≠ ',') :
    SafePre ('"' :: (b :: w') ++ ['"']) ['"', ',', ' '] rest := by
  intro u hu hne
  rcases List.suffix_cons_iff.mp hu with rfl | hu1
  · simp only [List.cons_append]
    exact isPrefixOf_cons2_ne hb _ _
  · rcases List.suffix_cons_iff.mp hu1 with rfl | hu2
    · exact isPrefixOf_cons_ne (by decide) _ _
    · rcases List.suffix_cons_iff.mp hu2 with rfl | hu3
      · exact isPrefixOf_cons_ne (by decide) _ _
      · exact absurd (List.suffix_nil.mp hu3) hne

theorem json_get_objText_second (ka ta tb : Str) (b : Char) (w' : Str)
    (hw : ∀ c ∈ b :: w', PlainChar c) (hbcomma : b ≠ ',')
    (h1 : ta ≠ b :: w') (h2 : ¬ ('"' :: (b :: w') <:+ ta))
    (hsafeA : SafePre ('"' :: (b :: w') ++ ['"'])
      ('\x7b' :: (('"' :: ka ++ ['"']) ++ [':', ' ']))
      ((('"' :: json_escape_string ta) ++ ['"', ',', ' '])
        ++ (('"' :: (b :: w') ++ ['"'])
          ++ (':' :: ' ' :: '"' :: (json_escape_string tb ++ '"' :: ['\x7d']))))) :
    json_get_string (objText ka ta (b :: w') tb) (b :: w') = some tb := by
  rw [objText_second_shape]
  apply json_get_of_safePre
  refine SafePre.append ?_ (SafePre.append ?_ ?_)
  · exact hsafeA
  · exact safePre_quoted_value (b :: w') hw ta _ rfl h1 h2
  · exact safePre_quote_comma_space hbcomma

/-! ### The scanning loop over encoded object lines -/

theorem mem_json_escape_string {c : Char} {s : Str}
    (h : c ∈ json_escape_string s) :
    c ∈ s ∨ c = '\\' ∨ c = 'n' ∨ c = 'r' ∨ c = 't' := by
  induction s with
  | nil => simp [json_escape_string] at h
  | cons a s ih =>
      rw [json_escape_string_cons, List.mem_append] at h
      rcases h with h | h
      · rcases escChar_cases a with ⟨he, _⟩ | ⟨he, _⟩ | ⟨he, _⟩ | ⟨he, _⟩
          | ⟨he, _⟩ <;> rw [he] at h
        · rcases List.mem_cons.mp h with rfl | h2
          · exact Or.inr (Or.inl rfl)
          · rcases List.mem_cons.mp h2 with rfl | h3
            · exact Or.inl (List.mem_cons_self _ _)
            · simp at h3
        · rcases List.mem_cons.mp h with rfl | h2
          · exact Or.inr (Or.inl rfl)
          · rcases List.mem_cons.mp h2 with rfl | h3
            · exact Or.inr (Or.inr (Or.inl rfl))
            · simp at h3
        · rcases List.mem_cons.mp h with rfl | h2
          · exact Or.inr (Or.inl rfl)
          · rcases List.mem_cons.mp h2 with rfl | h3
            · exact Or.inr (Or.inr (Or.inr (Or.inl rfl)))
            · simp at h3
        · rcases List.mem_cons.mp h with rfl | h2
          · exact Or.inr (Or.inl rfl)
          · rcases List.mem_cons.mp h2 with rfl | h3
            · exact Or.inr (Or.inr (Or.inr (Or.inr rfl)))
            · simp at h3
        · rcases List.mem_cons.mp h with rfl | h2
          · exact Or.inl (List.mem_cons_self _ _)
          · simp at h2
      · rcases ih h with h | h
        · exact Or.inl (List.mem_cons_of_mem a h)
        · exact Or.inr h

/-- A field value safe for the hand-rolled scanner: no brace and no
bracket characters (those drive the object and array navigation). -/
def SafeField (s : Str) : Prop :=
  ∀ c ∈ s, c ≠ '\x7b' ∧ c ≠ '\x7d' ∧ c ≠ '['

instance (s : Str) : Decidable (SafeField s) := by
  unfold SafeField
  infer_instance

theorem safeField_escape {s : Str} (h : SafeField s) {c : Char}
    (hc : c ∈ json_escape_string s) : c ≠ '\x7b' ∧ c ≠ '\x7d' := by
  rcases mem_json_escape_string hc with h1 | h1 | h1 | h1 | h1
  · exact ⟨(h c h1).1, (h c h1).2.1⟩
  all_goals subst h1
  all_goals exact ⟨by decide, by decide⟩

/-- Generic form of the per-entry lines both encoders print:
`    {<inner>}` followed by a comma on all but the last line. -/
def objLines {β : Type} (inner : β → Str) : List β → Str
  | [] => []
  | [b] => "    ".toList ++ ('\x7b' :: (inner b ++ ['\x7d'])) ++ ['\n']
  | b :: rest =>
      ("    ".toList ++ ('\x7b' :: (inner b ++ ['\x7d'])) ++ [',', '\n'])
        ++ objLines inner rest

theorem objLines_cons {β : Type} (inner : β → Str) (b : β) (rest : List β) :
    objLines inner (b :: rest)
      = ("    ".toList ++ ('\x7b' :: (inner b ++ ['\x7d']))
          ++ (if rest.isEmpty then ['\n'] else [',', '\n']))
        ++ objLines inner rest := by
  cases rest with
  | nil => simp [objLines]
  | cons b' rest' => simp [objLines]

/-- Scanning the rendered lines recovers exactly the parsed entries:
the scanner finds each `{`, slices to the matching `}` (no brace occurs
inside an inner text), parses the slice, and moves on. -/
theorem scan_objLines {α β : Type} (m : Nat) (f : Str → Option α)
    (inner : β → Str) (parsed : β → α) (footer : Str)
    (hfoot : ∀ c ∈ footer, c ≠ '\x7b') :
    ∀ (items : List β) (fuel count : Nat) (junk : Str),
      count + items.length ≤ m →
      (∀ c ∈ junk, c ≠ '\x7b') →
      (∀ b ∈ items, (∀ c ∈ inner b, c ≠ '\x7b' ∧ c ≠ '\x7d')
        ∧ f ('\x7b' :: (inner b ++ ['\x7d'])) = some (parsed b)) →
      (junk ++ (objLines inner items ++ footer)).length ≤ fuel →
      scanObjects m f fuel count (junk ++ (objLines inner items ++ footer))
        = items.map parsed := by
  intro items
  induction items with
  | nil =>
      intro fuel count junk hcount hjunk hitems hfuel
      have hnone : fromFirstChar '\x7b' (junk ++ (objLines inner [] ++ footer))
          = none := by
        apply fromFirstChar_none_of_not_mem
        intro c hc
        rcases List.mem_append.mp hc with h | h
        · exact hjunk c h
        · rcases List.mem_append.mp h with h | h
          · simp [objLines] at h
          · exact hfoot c h
      cases fuel with
      | zero => simp [scanObjects]
      | succ fuel =>
          rw [scanObjects, hnone]
          simp
  | cons b rest ih =>
      intro fuel count junk hcount hjunk hitems hfuel
      have hb := hitems b (List.mem_cons_self b rest)
      have htext : junk ++ (objLines inner (b :: rest) ++ footer)
          = (junk ++ "    ".toList)
            ++ (('\x7b' :: (inner b ++ ['\x7d']))
              ++ ((if rest.isEmpty then ['\n'] else [',', '\n'])
                ++ (objLines inner rest ++ footer))) := by
        rw [objLines_cons]
        simp [List.append_assoc]
      have hjunk2 : ∀ c ∈ junk ++ "    ".toList, c ≠ '\x7b' := by
        intro c hc
        rcases List.mem_append.mp hc with h | h
        · exact hjunk c h
        · have hc' : c = ' ' := by simpa using h
          subst hc'
          decide
      have h1 : fromFirstChar '\x7b' (junk ++ (objLines inner (b :: rest) ++ footer))
          = some (('\x7b' :: (inner b ++ ['\x7d']))
              ++ ((if rest.isEmpty then ['\n'] else [',', '\n'])
                ++ (objLines inner rest ++ footer))) := by
        rw [htext, fromFirstChar_append_not_mem hjunk2, List.cons_append,
          fromFirstChar_cons_self]
      have h2 : splitAtCharIncl '\x7d'
          (('\x7b' :: (inner b ++ ['\x7d']))
              ++ ((if rest.isEmpty then ['\n'] else [',', '\n'])
                ++ (objLines inner rest ++ footer)))
          = some ('\x7b' :: (inner b ++ ['\x7d']),
              (if rest.isEmpty then ['\n'] else [',', '\n'])
                ++ (objLines inner rest ++ footer)) := by
        have hshape : ('\x7b' :: (inner b ++ ['\x7d']))
              ++ ((if rest.isEmpty then ['\n'] else [',', '\n'])
                ++ (objLines inner rest ++ footer))
            = ('\x7b' :: inner b)
              ++ ('\x7d' :: ((if rest.isEmpty then ['\n'] else [',', '\n'])
                ++ (objLines inner rest ++ footer))) := by
          simp [List.append_assoc]
        rw [hshape, splitAtCharIncl_append]
        · simp [List.append_assoc]
        · intro c hc
          rcases List.mem_cons.mp hc with rfl | hc'
          · decide
          · exact (hb.1 c hc').2
      have hjunk3 : ∀ c ∈ (if rest.isEmpty then ['\n'] else [',', '\n']),
          c ≠ '\x7b' := by
        intro c hc
        split at hc
        · have h' : c = '\n' := by simpa using hc
          subst h'
          decide
        · have h' : c = ',' ∨ c = '\n' := by simpa using hc
          rcases h' with rfl | rfl <;> decide
      simp only [List.length_cons] at hcount
      cases fuel with
      | zero =>
          exfalso
          rw [htext] at hfuel
          simp [List.length_append] at hfuel
      | succ fuel =>
          rw [scanObjects, if_pos (by omega)]
          simp only [h1, h2, hb.2]
          rw [List.map_cons]
          congr 1
          refine ih fuel (count + 1)
            ((if rest.isEmpty then ['\n'] else [',', '\n']))
            (by omega) hjunk3
            (fun x hx => hitems x (List.mem_cons_of_mem b hx)) ?_
          rw [htext] at hfuel
          have hsep : (if rest.isEmpty then ['\n'] else [',', '\n']).length ≤ 2 := by
            split <;> decide
          simp only [List.length_append, List.length_cons] at hfuel ⊢
          omega

/-! ### The concrete object lines of the two encoders -/

/-- What stands between the braces of one encoded song line. -/
def songInner (s : Song) : Str :=
  "\"title\": \"".toList ++ (json_escape_string s.title
    ++ ("\", \"video_id\": \"".toList
      ++ (json_escape_string s.video_id ++ "\"".toList)))

/-- What stands between the braces of one encoded index line. -/
def indexInner (e : Str × Str) : Str :=
  "\"name\": \"".toList ++ (json_escape_string e.1
    ++ ("\", \"filename\": \"".toList
      ++ (json_escape_string e.2 ++ "\"".toList)))

theorem songObj_eq_objText (s : Song) :
    '\x7b' :: (songInner s ++ ['\x7d'])
      = objText ("title".toList) s.title ("video_id".toList) s.video_id := by
  simp [songInner, objText, List.append_assoc]

theorem indexObj_eq_objText (e : Str × Str) :
    '\x7b' :: (indexInner e ++ ['\x7d'])
      = objText ("name".toList) e.1 ("filename".toList) e.2 := by
  simp [indexInner, objText, List.append_assoc]

theorem safePre_header_title (X : Str) :
    SafePre ('"' :: ('v' :: "ideo_id".toList) ++ ['"'])
      ('\x7b' :: (('"' :: "title".toList ++ ['"']) ++ [':', ' '])) X := by
  intro u hu hne
  have hconv : ('\x7b' :: (('"' :: "title".toList ++ ['"']) ++ [':', ' ']))
      = ['\x7b', '"', 't', 'i', 't', 'l', 'e', '"', ':', ' '] := rfl
  rw [hconv] at hu
  have hmem := (List.mem_tails u _).mpr hu
  fin_cases hmem <;> simp_all [List.isPrefixOf]

theorem safePre_header_name (X : Str) :
    SafePre ('"' :: ('f' :: "ilename".toList) ++ ['"'])
      ('\x7b' :: (('"' :: "name".toList ++ ['"']) ++ [':', ' '])) X := by
  intro u hu hne
  have hconv : ('\x7b' :: (('"' :: "name".toList ++ ['"']) ++ [':', ' ']))
      = ['\x7b', '"', 'n', 'a', 'm', 'e', '"', ':', ' '] := rfl
  rw [hconv] at hu
  have hmem := (List.mem_tails u _).mpr hu
  fin_cases hmem <;> simp_all [List.isPrefixOf]

/-- A title safe for field extraction: a first occurrence of the
`"video_id"` pattern inside the title's quoted value would make the
decoder miss the real field (see the counterexample); this rules the
two possible shapes out. -/
def TitleSafe (t : Str) : Prop :=
  t ≠ "video_id".toList ∧ ¬ ('"' :: "video_id".toList <:+ t)

/-- The analogous condition for an index entry's name against the
`"filename"` pattern. -/
def NameSafe (n : Str) : Prop :=
  n ≠ "filename".toList ∧ ¬ ('"' :: "filename".toList <:+ n)

instance (t : Str) : Decidable (TitleSafe t) := by
  unfold TitleSafe
  infer_instance

instance (n : Str) : Decidable (NameSafe n) := by
  unfold NameSafe
  infer_instance

theorem parseSongObj_rendered (s : Song) (ht : TitleSafe s.title)
    (hv : s.video_id ≠ []) :
    parseSongObj ('\x7b' :: (songInner s ++ ['\x7d']))
      = some ⟨s.title, s.video_id, urlOfVideoId s.video_id, 0⟩ := by
  rw [songObj_eq_objText]
  have hvid : ("video_id".toList : Str) = 'v' :: "ideo_id".toList := rfl
  have hfirst := json_get_objText_first ("title".toList) s.title
    ("video_id".toList) s.video_id (by decide)
  have hsecond : json_get_string
      (objText ("title".toList) s.title ("video_id".toList) s.video_id)
      ("video_id".toList) = some s.video_id := by
    rw [hvid]
    exact json_get_objText_second ("title".toList) s.title s.video_id
      'v' ("ideo_id".toList) (by decide) (by decide) ht.1 ht.2
      (safePre_header_title _)
  rw [parseSongObj, hfirst, hsecond]
  simp [hv]

theorem parseIndexObj_rendered (e : Str × Str) (hn : NameSafe e.1)
    (hne : e.1 ≠ []) (hfe : e.2 ≠ []) :
    parseIndexObj ('\x7b' :: (indexInner e ++ ['\x7d'])) = some e := by
  rw [indexObj_eq_objText]
  have hfn : ("filename".toList : Str) = 'f' :: "ilename".toList := rfl
  have hfirst := json_get_objText_first ("name".toList) e.1
    ("filename".toList) e.2 (by decide)
  have hsecond : json_get_string
      (objText ("name".toList) e.1 ("filename".toList) e.2)
      ("filename".toList) = some e.2 := by
    rw [hfn]
    exact json_get_objText_second ("name".toList) e.1 e.2
      'f' ("ilename".toList) (by decide) (by decide) hn.1 hn.2
      (safePre_header_name _)
  rw [parseIndexObj, hfirst, hsecond]
  simp [hne, hfe]

def footerText : Str := "  ]\n\x7d\n".toList

theorem footer_no_open : ∀ c ∈ footerText, c ≠ '\x7b' := by decide

theorem songLines_eq_objLines (items : List Song) :
    songLines items = objLines songInner items := by
  induction items with
  | nil => rfl
  | cons s rest ih =>
      cases rest with
      | nil => simp [songLines, objLines, songLine, songInner, List.append_assoc]
      | cons s' rest' =>
          rw [show songLines (s :: s' :: rest')
              = songLine s false ++ songLines (s' :: rest') from rfl, ih]
          rw [show objLines songInner (s :: s' :: rest')
              = ("    ".toList ++ ('\x7b' :: (songInner s ++ ['\x7d']))
                  ++ [',', '\n']) ++ objLines songInner (s' :: rest') from rfl]
          congr 1
          simp [songLine, songInner, List.append_assoc]

theorem indexLines_eq_objLines (entries : List (Str × Str)) :
    indexLines entries = objLines indexInner entries := by
  induction entries with
  | nil => rfl
  | cons e rest ih =>
      cases rest with
      | nil => simp [indexLines, objLines, indexLine, indexInner, List.append_assoc]
      | cons e' rest' =>
          rw [show indexLines (e :: e' :: rest')
              = indexLine e false ++ indexLines (e' :: rest') from rfl, ih]
          rw [show objLines indexInner (e :: e' :: rest')
              = ("    ".toList ++ ('\x7b' :: (indexInner e ++ ['\x7d']))
                  ++ [',', '\n']) ++ objLines indexInner (e' :: rest') from rfl]
          congr 1
          simp [indexLine, indexInner, List.append_assoc]

theorem songInner_chars {b : Song} (h1 : SafeField b.title)
    (h2 : SafeField b.video_id) :
    ∀ c ∈ songInner b, c ≠ '\x7b' ∧ c ≠ '\x7d' := by
  intro c hc
  rw [songInner] at hc
  rcases List.mem_append.mp hc with h | h
  · have hx : ∀ x ∈ ("\"title\": \"".toList : Str),
        x ≠ '\x7b' ∧ x ≠ '\x7d' := by decide
    exact hx c h
  · rcases List.mem_append.mp h with h | h
    · exact safeField_escape h1 h
    · rcases List.mem_append.mp h with h | h
      · have hx : ∀ x ∈ ("\", \"video_id\": \"".toList : Str),
            x ≠ '\x7b' ∧ x ≠ '\x7d' := by decide
        exact hx c h
      · rcases List.mem_append.mp h with h | h
        · exact safeField_escape h2 h
        · have hx : ∀ x ∈ ("\"".toList : Str),
              x ≠ '\x7b' ∧ x ≠ '\x7d' := by decide
          exact hx c h

theorem indexInner_chars {e : Str × Str} (h1 : SafeField e.1)
    (h2 : SafeField e.2) :
    ∀ c ∈ indexInner e, c ≠ '\x7b' ∧ c ≠ '\x7d' := by
  intro c hc
  rw [indexInner] at hc
  rcases List.mem_append.mp hc with h | h
  · have hx : ∀ x ∈ ("\"name\": \"".toList : Str),
        x ≠ '\x7b' ∧ x ≠ '\x7d' := by decide
    exact hx c h
  · rcases List.mem_append.mp h with h | h
    · exact safeField_escape h1 h
    · rcases List.mem_append.mp h with h | h
      · have hx : ∀ x ∈ ("\", \"filename\": \"".toList : Str),
            x ≠ '\x7b' ∧ x ≠ '\x7d' := by decide
        exact hx c h
      · rcases List.mem_append.mp h with h | h
        · exact safeField_escape h2 h
        · have hx : ∀ x ∈ ("\"".toList : Str),
              x ≠ '\x7b' ∧ x ≠ '\x7d' := by decide
          exact hx c h

/-- Decoding an encoded playlist file recovers exactly the encoded
songs (with the decoder's re-derived url and zero duration). -/
theorem decode_encode_playlist (name : Str) (items : List Song)
    (hname : SafeField name)
    (hitems : ∀ s ∈ items, SafeField s.title ∧ SafeField s.video_id
      ∧ s.video_id ≠ [] ∧ TitleSafe s.title)
    (hcount : items.length ≤ 500)
    (hsize : (save_playlist_text name items).length ≤ 1048576) :
    load_playlist_songs_text (save_playlist_text name items)
      = items.map (fun s => ⟨s.title, s.video_id, urlOfVideoId s.video_id, 0⟩) := by
  have hT : save_playlist_text name items
      = ("\x7b\n  \"name\": \"".toList ++ (name ++ "\",\n  \"songs\": ".toList))
        ++ ('[' :: ('\n' :: (songLines items ++ footerText))) := by
    simp [save_playlist_text, footerText, List.append_assoc]
  have hlen0 : (save_playlist_text name items).length ≠ 0 := by
    rw [hT]
    simp
  rw [load_playlist_songs_text, if_neg (by omega)]
  have hinfix : ("\"songs\"".toList : Str)
      <:+: ("\x7b\n  \"name\": \"".toList ++ (name ++ "\",\n  \"songs\": ".toList)) := by
    refine ⟨"\x7b\n  \"name\": \"".toList ++ (name ++ "\",\n  ".toList),
      ": ".toList, ?_⟩
    simp [List.append_assoc]
  obtain ⟨t, ht, heq⟩ := suffixAtFirst_append_of_found (by decide)
    (suffixAtFirst_isSome_of_substring hinfix)
    ('[' :: ('\n' :: (songLines items ++ footerText)))
  rw [hT]
  simp only [heq]
  have htmem : ∀ c ∈ t, c ≠ '[' := by
    intro c hc
    have hcmem := ht.subset hc
    rcases List.mem_append.mp hcmem with h | h
    · have hx : ∀ x ∈ ("\x7b\n  \"name\": \"".toList : Str), x ≠ '[' := by decide
      exact hx c h
    · rcases List.mem_append.mp h with h | h
      · exact (hname c h).2.2
      · have hx : ∀ x ∈ ("\",\n  \"songs\": ".toList : Str), x ≠ '[' := by decide
        exact hx c h
  rw [fromFirstChar_append_not_mem htmem, fromFirstChar_cons_self]
  have hB : ('[' :: ('\n' :: (songLines items ++ footerText)))
      = ['[', '\n'] ++ (objLines songInner items ++ footerText) := by
    rw [songLines_eq_objLines]
    rfl
  simp only [hB]
  apply scan_objLines 500 parseSongObj songInner
    (fun s => ⟨s.title, s.video_id, urlOfVideoId s.video_id, 0⟩)
    footerText footer_no_open items _ 0 _ (by omega)
    (by
      intro c hc
      have h' : c = '[' ∨ c = '\n' := by simpa using hc
      rcases h' with rfl | rfl <;> decide)
    ?_ (Nat.le_refl _)
  intro b hb
  obtain ⟨hb1, hb2, hb3, hb4⟩ := hitems b hb
  exact ⟨songInner_chars hb1 hb2, parseSongObj_rendered b hb4 hb3⟩

theorem suffixAtFirst_append_of_safe {pat x rest : Str}
    (h : SafePre pat x rest) :
    suffixAtFirst pat (x ++ rest) = suffixAtFirst pat rest := by
  induction x with
  | nil => simp
  | cons c x' ih =>
      have hfalse : pat.isPrefixOf (c :: (x' ++ rest)) = false := by
        have := h (c :: x') (List.suffix_refl _) (by simp)
        simpa using this
      rw [List.cons_append, suffixAtFirst, hfalse]
      simp only [Bool.false_eq_true, if_false]
      exact ih (fun u hu hne => h u (hu.trans (List.suffix_cons c x')) hne)

theorem suffixAtFirst_self {pat : Str} (hpat : pat ≠ []) (X : Str) :
    suffixAtFirst pat (pat ++ X) = some (pat ++ X) := by
  cases pat with
  | nil => exact absurd rfl hpat
  | cons c w =>
      have hpre : (c :: w).isPrefixOf (c :: (w ++ X)) = true := by
        have h0 := isPrefixOf_append_self (c :: w) X
        rw [List.cons_append] at h0
        exact h0
      rw [List.cons_append, suffixAtFirst, hpre]
      simp

theorem safePre_index_header (X : Str) :
    SafePre ("\"playlists\"".toList) ("\x7b\n  ".toList) X := by
  intro u hu hne
  have hconv : ("\x7b\n  ".toList : Str) = ['\x7b', '\n', ' ', ' '] := rfl
  rw [hconv] at hu
  have hmem := (List.mem_tails u _).mpr hu
  fin_cases hmem <;> simp_all [List.isPrefixOf]

/-- Decoding an encoded index file recovers exactly the encoded
`(name, filename)` pairs. -/
theorem decode_encode_index (entries : List (Str × Str))
    (hentries : ∀ e ∈ entries, SafeField e.1 ∧ SafeField e.2
      ∧ e.1 ≠ [] ∧ e.2 ≠ [] ∧ NameSafe e.1)
    (hecount : entries.length ≤ 50)
    (hesize : (save_playlists_index_text entries).length ≤ 1048576) :
    load_playlists_text (save_playlists_index_text entries) = entries := by
  have hT : save_playlists_index_text entries
      = "\x7b\n  ".toList ++ ("\"playlists\"".toList
          ++ (": ".toList ++ ('[' :: ('\n' :: (indexLines entries ++ footerText))))) := by
    simp [save_playlists_index_text, footerText, List.append_assoc]
  have hlen0 : (save_playlists_index_text entries).length ≠ 0 := by
    rw [hT]
    simp
  rw [load_playlists_text, if_neg (by omega)]
  rw [hT, suffixAtFirst_append_of_safe (safePre_index_header _),
    suffixAtFirst_self (by decide)]
  have hshape : ("\"playlists\"".toList : Str)
        ++ (": ".toList ++ ('[' :: ('\n' :: (indexLines entries ++ footerText))))
      = "\"playlists\": ".toList
        ++ ('[' :: ('\n' :: (indexLines entries ++ footerText))) := by
    simp [List.append_assoc]
  simp only [hshape]
  rw [fromFirstChar_append_not_mem (by decide), fromFirstChar_cons_self]
  have hB : ('[' :: ('\n' :: (indexLines entries ++ footerText)))
      = ['[', '\n'] ++ (objLines indexInner entries ++ footerText) := by
    rw [indexLines_eq_objLines]
    rfl
  simp only [hB]
  have hscan := scan_objLines 50 parseIndexObj indexInner id
    footerText footer_no_open entries
    (['[', '\n'] ++ (objLines indexInner entries ++ footerText)).length 0
    ['[', '\n'] (by omega)
    (by
      intro c hc
      have h' : c = '[' ∨ c = '\n' := by simpa using hc
      rcases h' with rfl | rfl <;> decide)
    (by
      intro b hb
      obtain ⟨hb1, hb2, hb3, hb4, hb5⟩ := hentries b hb
      exact ⟨indexInner_chars hb1 hb2, parseIndexObj_rendered b hb5 hb3 hb4⟩)
    (Nat.le_refl _)
  rw [hscan, List.map_id]

set_option maxRecDepth 40000 in
/-- Counterexample to C1 as stated: a playlist holding one song titled
`video_id` — plain text, none of the five special characters — encodes
to a file that decodes back to the EMPTY song list.  The decoder's
`strstr`-based scan for the `"video_id"` label matches inside the
title's quoted value (`"title": "video_id"`), the character after that
match is `,` rather than a quote, so `json_get_string` returns NULL and
the entry is dropped. -/
theorem codec_roundtrip_cex :
    load_playlist_songs_text
        (save_playlist_text ['p']
          [⟨"video_id".toList, "abc".toList, urlOfVideoId ("abc".toList), 0⟩])
      = []
    ∧ [⟨"video_id".toList, "abc".toList, urlOfVideoId ("abc".toList), 0⟩]
      ≠ ([] : List Song) := by
  constructor
  · decide
  · simp

/-- C1 (amended): encode-then-decode is the identity on both record
shapes — every song's title and source id and every index pair survives
exactly, quotes, backslashes, newlines, carriage returns and tabs
included — provided the data respects the hand-rolled scanner's blind
spots: no field contains a brace or `[`; song ids are non-empty (empty
ones are dropped); no title is exactly `video_id` or ends with
`"video_id` (and no playlist name is exactly `filename` or ends with
`"filename`), which would hijack the label search; the record respects
the in-memory capacity bounds and the decoder's 1 MiB ceiling. -/
theorem codec_roundtrip (name : Str) (items : List Song)
    (entries : List (Str × Str))
    (hname : SafeField name)
    (hitems : ∀ s ∈ items, SafeField s.title ∧ SafeField s.video_id
      ∧ s.video_id ≠ [] ∧ TitleSafe s.title)
    (hcount : items.length ≤ 500)
    (hsize : (save_playlist_text name items).length ≤ 1048576)
    (hentries : ∀ e ∈ entries, SafeField e.1 ∧ SafeField e.2
      ∧ e.1 ≠ [] ∧ e.2 ≠ [] ∧ NameSafe e.1)
    (hecount : entries.length ≤ 50)
    (hesize : (save_playlists_index_text entries).length ≤ 1048576) :
    (load_playlist_songs_text (save_playlist_text name items)).map
        (fun s => (s.title, s.video_id))
      = items.map (fun s => (s.title, s.video_id))
    ∧ load_playlists_text (save_playlists_index_text entries) = entries := by
  constructor
  · rw [decode_encode_playlist name items hname hitems hcount hsize]
    simp [List.map_map, Function.comp]
  · exact decode_encode_index entries hentries hecount hesize

set_option maxRecDepth 40000 in
/-- Witness for `codec_roundtrip`: a playlist whose name contains quotes
and whose song title contains a quote, a newline and a backslash
round-trips exactly, as does a quoted index entry. -/
theorem codec_roundtrip_witness :
    (let name : Str := "My \"List\"".toList
     let items : List Song := [⟨"a\"b\nc\\d".toList, "xyz12".toList,
        urlOfVideoId ("xyz12".toList), 7⟩]
     let entries : List (Str × Str) := [("My \"List\"".toList, "my_list.json".toList)]
     SafeField name
       ∧ (∀ s ∈ items, SafeField s.title ∧ SafeField s.video_id
            ∧ s.video_id ≠ [] ∧ TitleSafe s.title)
       ∧ items.length ≤ 500
       ∧ (save_playlist_text name items).length ≤ 1048576
       ∧ (∀ e ∈ entries, SafeField e.1 ∧ SafeField e.2
            ∧ e.1 ≠ [] ∧ e.2 ≠ [] ∧ NameSafe e.1)
       ∧ entries.length ≤ 50
       ∧ (save_playlists_index_text entries).length ≤ 1048576
       ∧ (load_playlist_songs_text (save_playlist_text name items)).map
             (fun s => (s.title, s.video_id))
           = items.map (fun s => (s.title, s.video_id))
       ∧ load_playlists_text (save_playlists_index_text entries) = entries) := by
  refine ⟨by decide, by decide, by decide, by decide, by decide, by decide,
    by decide, ?_, ?_⟩
  · exact (codec_roundtrip ("My \"List\"".toList)
      [⟨"a\"b\nc\\d".toList, "xyz12".toList, urlOfVideoId ("xyz12".toList), 7⟩]
      [("My \"List\"".toList, "my_list.json".toList)]
      (by decide) (by decide) (by decide) (by decide)
      (by decide) (by decide) (by decide)).1
  · exact (codec_roundtrip ("My \"List\"".toList)
      [⟨"a\"b\nc\\d".toList, "xyz12".toList, urlOfVideoId ("xyz12".toList), 7⟩]
      [("My \"List\"".toList, "my_list.json".toList)]
      (by decide) (by decide) (by decide) (by decide)
      (by decide) (by decide) (by decide)).2

end ShellBeats
